import Mathlib

/-!
Verification of the xSmartDeepResearch ReAct agent core
(`src/agent/react_agent.py`, class `xSmartReactAgent`).

The development shallowly embeds the orchestration loop (`stream_run`), the
model gateway (`_call_llm`), the protocol helpers (`_extract_answer`,
think extraction, truncation at the tool-response delimiter), the transcript
pruning (`_prune_messages`) and forced summarization (`_force_summarize`).

Strings are modelled as `List Char`; Python `str.strip()` as `pyStrip`;
Python `s.split(sep)` / `re.search` behaviour is reproduced with explicit
first/last occurrence combinators (`afterFirst`, `beforeFirst`, `afterLast`)
whose semantics are grounded by the occurrence lemmas below.

External collaborators (the chat-completion backend, the parsed tool-call
extractor `_extract_tool_calls` whose lenient json5 parsing is out of scope
here, the concrete tools, the token estimator heuristic/tokenizer, and the
wall clock) are parameters of the embedding (`LoopEnv`), exactly as the code
consumes them through narrow call interfaces.
-/

namespace ReactAgent

set_option maxRecDepth 40000

/-- One chat message, mirroring the Python dicts
`{"role": ..., "content": ...}` used in `stream_run`. -/
structure Msg where
  role : List Char
  content : List Char
deriving Repr, DecidableEq

/-! ### String machinery

`isPre p s` is Python `s.startswith(p)` on the char-list model;
`containsSub p s` is Python `p in s`;
`afterFirst p s` is the suffix strictly after the first occurrence of `p`;
`beforeFirst p s` is the text before the first occurrence of `p`
(`s.split(p)[0]` when `p in s`);
`afterLast p s` is `s.split(p)[-1]` (text after the last occurrence in a
left-to-right non-overlapping scan, the whole of `s` when absent);
`pyStrip` is `str.strip()`. -/

def isPre : List Char → List Char → Bool
  | [], _ => true
  | _ :: _, [] => false
  | a :: as, b :: bs => a == b && isPre as bs

def containsSub (pat : List Char) : List Char → Bool
  | [] => isPre pat []
  | c :: rest => isPre pat (c :: rest) || containsSub pat rest

def afterFirst (pat : List Char) : List Char → Option (List Char)
  | [] => if isPre pat [] then some [] else none
  | c :: rest =>
    if isPre pat (c :: rest) then some ((c :: rest).drop pat.length)
    else afterFirst pat rest

def beforeFirst (pat : List Char) : List Char → Option (List Char)
  | [] => if isPre pat [] then some [] else none
  | c :: rest =>
    if isPre pat (c :: rest) then some []
    else (beforeFirst pat rest).map (c :: ·)

theorem isPre_iff (p : List Char) : ∀ s : List Char, isPre p s = true ↔ ∃ t, s = p ++ t := by
  induction p with
  | nil =>
    intro s
    simp [isPre]
  | cons a as ih =>
    intro s
    cases s with
    | nil => simp [isPre]
    | cons b bs =>
      simp only [isPre, Bool.and_eq_true, beq_iff_eq, ih bs]
      constructor
      · rintro ⟨rfl, t, rfl⟩
        exact ⟨t, rfl⟩
      · rintro ⟨t, ht⟩
        cases ht
        exact ⟨rfl, t, rfl⟩

theorem isPre_append (p s t : List Char) (h : isPre p s = true) :
    isPre p (s ++ t) = true := by
  rcases (isPre_iff p s).1 h with ⟨u, rfl⟩
  exact (isPre_iff p (p ++ u ++ t)).2 ⟨u ++ t, by simp⟩

theorem containsSub_of_isPre (p s : List Char) (h : isPre p s = true) :
    containsSub p s = true := by
  cases s with
  | nil => simpa [containsSub] using h
  | cons c rest => simp [containsSub, h]

theorem containsSub_append_right (p s t : List Char) (h : containsSub p t = true) :
    containsSub p (s ++ t) = true := by
  induction s with
  | nil => simpa using h
  | cons c cs ih => simp [containsSub, ih]

theorem containsSub_append_left (p s t : List Char) (h : containsSub p s = true) :
    containsSub p (s ++ t) = true := by
  induction s with
  | nil =>
    simp only [containsSub] at h
    have : p = [] := by
      cases p with
      | nil => rfl
      | cons a as => simp [isPre] at h
    subst this
    cases t with
    | nil => simp [containsSub, isPre]
    | cons c cs => simp [containsSub, isPre]
  | cons c cs ih =>
    simp only [containsSub, Bool.or_eq_true] at h ⊢
    rcases h with h | h
    · exact Or.inl (isPre_append p (c :: cs) t h)
    · exact Or.inr (ih h)

theorem afterFirst_none_iff (p : List Char) :
    ∀ s : List Char, afterFirst p s = none ↔ containsSub p s = false := by
  intro s
  induction s with
  | nil =>
    by_cases h : isPre p [] = true
    · simp [afterFirst, containsSub, h]
    · simp [afterFirst, containsSub, h, Bool.of_not_eq_true h]
  | cons c rest ih =>
    by_cases h : isPre p (c :: rest) = true
    · simp [afterFirst, containsSub, h]
    · have h' : isPre p (c :: rest) = false := Bool.of_not_eq_true h
      simp [afterFirst, containsSub, h', ih]

theorem afterFirst_decomp (p : List Char) :
    ∀ s r : List Char, afterFirst p s = some r → ∃ a, s = a ++ p ++ r := by
  intro s
  induction s with
  | nil =>
    intro r h
    by_cases hp : isPre p [] = true
    · have hpnil : p = [] := by
        rcases (isPre_iff p []).1 hp with ⟨t, ht⟩
        cases p with
        | nil => rfl
        | cons a as => simp at ht
      simp [afterFirst, hp] at h
      subst hpnil
      exact ⟨[], by simp [← h]⟩
    · simp [afterFirst, hp] at h
  | cons c rest ih =>
    intro r h
    by_cases hp : isPre p (c :: rest) = true
    · simp only [afterFirst, hp, if_pos, Option.some.injEq] at h
      rcases (isPre_iff p (c :: rest)).1 hp with ⟨t, ht⟩
      refine ⟨[], ?_⟩
      have hd : (c :: rest).drop p.length = t := by
        rw [ht]
        exact List.drop_left p t
      rw [← h, hd, ht]
      simp
    · simp only [afterFirst, hp, if_neg, if_false] at h
      rcases ih r h with ⟨a, ha⟩
      exact ⟨c :: a, by simp [ha]⟩

theorem afterFirst_length_lt (p : List Char) (hp : p ≠ []) (s r : List Char)
    (h : afterFirst p s = some r) : r.length < s.length := by
  rcases afterFirst_decomp p s r h with ⟨a, rfl⟩
  have : 1 ≤ p.length := by
    cases p with
    | nil => exact absurd rfl hp
    | cons x xs => simp
  simp only [List.length_append]
  omega

theorem beforeFirst_decomp (p : List Char) :
    ∀ s b : List Char, beforeFirst p s = some b →
      ∃ r, afterFirst p s = some r ∧ s = b ++ p ++ r := by
  intro s
  induction s with
  | nil =>
    intro b h
    by_cases hp : isPre p [] = true
    · have hpnil : p = [] := by
        rcases (isPre_iff p []).1 hp with ⟨t, ht⟩
        cases p with
        | nil => rfl
        | cons a as => simp at ht
      subst hpnil
      simp only [beforeFirst, if_true, Option.some.injEq, isPre] at h
      subst h
      exact ⟨[], by decide, by decide⟩
    · simp [beforeFirst, hp] at h
  | cons c rest ih =>
    intro b h
    by_cases hp : isPre p (c :: rest) = true
    · simp only [beforeFirst, hp, if_pos, Option.some.injEq] at h
      rcases (isPre_iff p (c :: rest)).1 hp with ⟨t, ht⟩
      refine ⟨(c :: rest).drop p.length, by simp [afterFirst, hp], ?_⟩
      have hd : (c :: rest).drop p.length = t := by
        rw [ht]
        exact List.drop_left p t
      rw [← h, hd, ht]
      simp
    · simp only [beforeFirst, hp, if_false] at h
      cases hbf : beforeFirst p rest with
      | none => rw [hbf] at h; simp at h
      | some b' =>
        rw [hbf] at h
        simp at h
        subst h
        rcases ih b' hbf with ⟨r, hr, hrest⟩
        refine ⟨r, ?_, by simp [hrest]⟩
        simp [afterFirst, hp, hr]

/-- First-occurrence minimality: the prefix returned by `beforeFirst` contains
no earlier occurrence of the pattern (grounding that `beforeFirst`/`afterFirst`
really model Python's leftmost `re.search` / `str.find`). -/
theorem beforeFirst_minimal (p : List Char) :
    ∀ s b : List Char, beforeFirst p s = some b →
      ∀ i, i < b.length → isPre p (s.drop i) = false := by
  intro s
  induction s with
  | nil =>
    intro b h i hi
    by_cases hp : isPre p [] = true
    · simp only [beforeFirst, hp, if_true, Option.some.injEq] at h
      subst h
      simp at hi
    · simp [beforeFirst, hp] at h
  | cons c rest ih =>
    intro b h i hi
    by_cases hp : isPre p (c :: rest) = true
    · simp only [beforeFirst, hp, if_true, Option.some.injEq] at h
      subst h
      simp at hi
    · simp only [beforeFirst, hp, if_false] at h
      cases hbf : beforeFirst p rest with
      | none => rw [hbf] at h; simp at h
      | some b' =>
        rw [hbf] at h
        simp at h
        subst h
        cases i with
        | zero => simpa using Bool.of_not_eq_true hp
        | succ j =>
          simp only [List.length_cons, Nat.succ_lt_succ_iff] at hi
          simpa using ih b' hbf j hi

/-- Fuel-driven scan past successive non-overlapping occurrences; with fuel
`> s.length` it computes the text after the last occurrence of `pat`,
i.e. Python `s.split(pat)[-1]`. -/
def afterLastAux (pat : List Char) : Nat → List Char → List Char
  | 0, s => s
  | fuel + 1, s =>
    match afterFirst pat s with
    | none => s
    | some r => afterLastAux pat fuel r

/-- Python `s.split(pat)[-1]`: the text after the last occurrence of `pat`
(the whole string when `pat` does not occur). -/
def afterLast (pat s : List Char) : List Char := afterLastAux pat (s.length + 1) s

theorem afterLastAux_suffix (pat : List Char) :
    ∀ fuel s, ∃ a, s = a ++ afterLastAux pat fuel s := by
  intro fuel
  induction fuel with
  | zero => intro s; exact ⟨[], rfl⟩
  | succ n ih =>
    intro s
    cases haf : afterFirst pat s with
    | none => exact ⟨[], by simp [afterLastAux, haf]⟩
    | some r =>
      rcases afterFirst_decomp pat s r haf with ⟨a, hs⟩
      rcases ih r with ⟨a', ha'⟩
      refine ⟨a ++ pat ++ a', ?_⟩
      simp only [afterLastAux, haf]
      calc s = a ++ pat ++ r := hs
        _ = a ++ pat ++ (a' ++ afterLastAux pat n r) := by rw [← ha']
        _ = a ++ pat ++ a' ++ afterLastAux pat n r := by simp [List.append_assoc]

theorem afterLastAux_no_occurrence (pat : List Char) (hp : pat ≠ []) :
    ∀ fuel s, s.length < fuel → containsSub pat (afterLastAux pat fuel s) = false := by
  intro fuel
  induction fuel with
  | zero => intro s h; omega
  | succ n ih =>
    intro s h
    cases haf : afterFirst pat s with
    | none =>
      simp only [afterLastAux, haf]
      have := (afterFirst_none_iff pat s).1 haf
      exact this
    | some r =>
      simp only [afterLastAux, haf]
      have hlt := afterFirst_length_lt pat hp s r haf
      exact ih r (by omega)

theorem afterLast_suffix (pat s : List Char) : ∃ a, s = a ++ afterLast pat s :=
  afterLastAux_suffix pat (s.length + 1) s

theorem afterLast_no_occurrence (pat : List Char) (hp : pat ≠ []) (s : List Char) :
    containsSub pat (afterLast pat s) = false :=
  afterLastAux_no_occurrence pat hp (s.length + 1) s (by omega)

/-- When `pat` occurs in `s`, `afterLast pat s` is a suffix of (the text after)
the first occurrence, hence of any region past that occurrence. -/
theorem afterLast_suffix_of_afterFirst (pat : List Char) (s r : List Char)
    (h : afterFirst pat s = some r) : ∃ a, r = a ++ afterLast pat s := by
  have : afterLast pat s = afterLastAux pat s.length r := by
    simp only [afterLast, afterLastAux, h]
  rw [this]
  exact afterLastAux_suffix pat s.length r

/-- The exact whitespace set of Python `str.strip()`:
space, tab, newline, carriage return, vertical tab, form feed. -/
def isPySpace (c : Char) : Bool :=
  c == ' ' || c == '\t' || c == '\n' || c == '\r' ||
    c == Char.ofNat 11 || c == Char.ofNat 12

/-- Python `str.strip()` on the char-list model. -/
def pyStrip (s : List Char) : List Char :=
  ((s.dropWhile isPySpace).reverse.dropWhile isPySpace).reverse

theorem dropWhile_suffix_decomp (p : Char → Bool) :
    ∀ s : List Char, ∃ a, s = a ++ s.dropWhile p := by
  intro s
  induction s with
  | nil => exact ⟨[], rfl⟩
  | cons c rest ih =>
    by_cases h : p c = true
    · rcases ih with ⟨a, ha⟩
      exact ⟨c :: a, by simpa [List.dropWhile, h] using congrArg (c :: ·) ha⟩
    · exact ⟨[], by simp [List.dropWhile, h]⟩

theorem pyStrip_infix_decomp (s : List Char) : ∃ a b, s = a ++ pyStrip s ++ b := by
  rcases dropWhile_suffix_decomp isPySpace s with ⟨a, ha⟩
  rcases dropWhile_suffix_decomp isPySpace (s.dropWhile isPySpace).reverse with ⟨b, hb⟩
  have h2 : s.dropWhile isPySpace = pyStrip s ++ b.reverse := by
    have := congrArg List.reverse hb
    simpa [pyStrip] using this
  refine ⟨a, b.reverse, ?_⟩
  conv_lhs => rw [ha, h2]
  simp [List.append_assoc]

theorem containsSub_of_containsSub_pyStrip (pat s : List Char)
    (h : containsSub pat (pyStrip s) = true) : containsSub pat s = true := by
  rcases pyStrip_infix_decomp s with ⟨a, b, hs⟩
  rw [hs]
  have h2 := containsSub_append_right pat a _ (containsSub_append_left pat _ b h)
  simpa [List.append_assoc] using h2

theorem pyStrip_eq_nil_iff (s : List Char) :
    pyStrip s = [] ↔ ∀ c ∈ s, isPySpace c = true := by
  constructor
  · intro h c hc
    have h1 : (s.dropWhile isPySpace).reverse.dropWhile isPySpace = [] := by
      have := congrArg List.reverse h
      simpa [pyStrip] using this
    have h2 : ∀ x ∈ s.dropWhile isPySpace, isPySpace x = true := by
      intro x hx
      exact List.dropWhile_eq_nil_iff.1 h1 x (List.mem_reverse.2 hx)
    rw [← List.takeWhile_append_dropWhile (p := isPySpace) (l := s)] at hc
    rcases List.mem_append.1 hc with hca | hcb
    · exact List.mem_takeWhile_imp hca
    · exact h2 c hcb
  · intro h
    have h1 : s.dropWhile isPySpace = [] := List.dropWhile_eq_nil_iff.2 h
    simp [pyStrip, h1]

/-! ### Protocol delimiters (class constants of `xSmartReactAgent`) -/

def answerStartL : List Char := ("<answer>").toList
def answerEndL : List Char := ("</answer>").toList
def thinkStartL : List Char := ("<think>").toList
def thinkEndL : List Char := ("</think>").toList
def toolCallStartL : List Char := ("<tool_call>").toList
def toolCallEndL : List Char := ("</tool_call>").toList
def toolRespStartL : List Char := ("<tool_response>").toList
def toolRespEndL : List Char := ("</tool_response>").toList

/-! ### Protocol codec -/

/-- `xSmartReactAgent._extract_answer`.

The Python body first tries `re.search("<answer>(.*?)</answer>", content,
DOTALL)`: a leftmost match exists iff the text after the first `<answer>`
contains `</answer>` (if the first open tag has no close after it, no later
open tag has one either), and the group is the text between that open tag and
the first close tag after it.  On failure it falls back to
`content.split("<answer>")[-1].strip()` when the open tag is present, and to
`content.strip()` otherwise. -/
def extractAnswer (s : List Char) : List Char :=
  match afterFirst answerStartL s with
  | some r =>
    match beforeFirst answerEndL r with
    | some m => pyStrip m
    | none => pyStrip (afterLast answerStartL s)
  | none => pyStrip s

/-- `xSmartReactAgent._has_answer`: only the open tag is required. -/
def hasAnswer (s : List Char) : Bool := containsSub answerStartL s

/-- The think-extraction block of `stream_run` (lines 225-240): matched
`<think>...</think>` first; otherwise the text after the last `<think>`,
truncated at a tool-call or answer tag, stripping at each step. -/
def extractThink (r : List Char) : Option (List Char) :=
  if containsSub thinkStartL r then
    match afterFirst thinkStartL r with
    | some rest =>
      match beforeFirst thinkEndL rest with
      | some mid => some (pyStrip mid)
      | none =>
        let t0 := pyStrip (afterLast thinkStartL r)
        let t1 := match beforeFirst toolCallStartL t0 with
          | some b => pyStrip b
          | none => t0
        let t2 := match beforeFirst answerStartL t1 with
          | some b => pyStrip b
          | none => t1
        some t2
    | none => none
  else none

/-- Truncation of a model response at a hallucinated observation
(`stream_run` lines 218-220: everything from the first `<tool_response>`
onwards is cut). -/
def truncResp (raw : List Char) : List Char :=
  match beforeFirst toolRespStartL raw with
  | some b => b
  | none => raw

/-! ### Event stream and loop environment

`stream_run` is an async generator; its observable behaviour is the sequence
of yielded event dicts.  `Event α` mirrors the dict shapes (`α` is the opaque
type of parsed tool arguments).  External collaborators are the fields of
`LoopEnv`:

* `llm` models `_call_llm` (which never raises: it returns a stripped
  non-empty completion or a sentinel string, see `callLLM` further below);
* `extractCalls` models `_extract_tool_calls` (lenient json5 parsing of the
  registered-format blocks; out of scope here, so kept abstract);
* `tools` is the registry `self.tools` (insertion-ordered dict with distinct
  keys, modelled as an association list); tool coroutines that return
  normally produce a result string.  The raising case is modelled separately
  by `dispatchE` below, because `stream_run` itself installs no handler;
* `timedOut k` is the wall-clock check `elapsed_minutes > timeout_minutes`
  evaluated at loop entry after `k` completed iterations;
* `est` models `_count_tokens` (tokenizer when importable, chars÷4 fallback);
* `maxIterations`/`maxTokens` are `self.max_iterations`/`self.max_tokens`. -/

inductive Event (α : Type) where
  | status (content : List Char)
  | think (content : List Char)
  | toolStart (tool : List Char) (args : α) (iteration : Nat)
  | toolResponse (tool : List Char) (content : List Char) (iteration : Nat)
  | answer (content : List Char)
  | finalAnswer (content : List Char) (messages : List Msg) (iterations : Nat)
      (termination : List Char)
  | timeout (content : List Char)
  | error (content : List Char)
deriving Repr, DecidableEq

structure LoopEnv (α : Type) where
  llm : List Msg → List Char
  extractCalls : List Char → List (List Char × α)
  tools : List (List Char × (α → List Char))
  timedOut : Nat → Bool
  est : List Msg → Nat
  maxIterations : Nat
  maxTokens : Nat
  systemPrompt : List Char
  intentStatus : List Char

def roleSystem : List Char := ("system").toList
def roleUser : List Char := ("user").toList
def roleAssistant : List Char := ("assistant").toList

def identifyStatusL : List Char := ("🔍 Identifying research intent...").toList
def researchTimeoutL : List Char := ("Research timeout").toList
def prunedStatusL : List Char := ("Context pruned to save tokens.").toList
def tokenLimitStatusL : List Char :=
  ("Token limit reached, forcing final summary...").toList
def terminationAnswerL : List Char := ("answer").toList
def termForcedL : List Char := ("token_limit_forced_answer").toList
def termFormatErrL : List Char := ("token_limit_format_error").toList
def maxIterContentL : List Char := ("Max iterations exceeded").toList
def maxIterAnswerL : List Char := ("Max iterations reached without final answer").toList
def maxIterTermL : List Char := ("max_iterations_exceeded").toList

/-- `config.prompts.FORCE_SUMMARIZE_PROMPT`, verbatim. -/
def forcePromptL : List Char :=
  ("You have now reached the maximum context length you can handle. You should stop making tool calls and, based on all the information above, think again and provide what you consider the most likely answer in the following format:\n\n<think>your final thinking</think>\n<answer>your answer</answer>").toList

/-- The `f"Iteration {iterations}..."` status content. -/
def iterStatusL (it : Nat) : List Char :=
  ("Iteration ").toList ++ (Nat.repr it).toList ++ ("...").toList

/-- A single quote character (kept out of string literals on purpose). -/
def sq : Char := Char.ofNat 39

/-- `"\n".join`-style joining with a separator (Python `sep.join(xs)`). -/
def joinSep (sep : List Char) : List (List Char) → List Char
  | [] => []
  | [x] => x
  | x :: xs => x ++ sep ++ joinSep sep xs

/-- Python `repr` of a string that contains no quote characters. -/
def pyStrRepr (s : List Char) : List Char := sq :: (s ++ [sq])

/-- Python `repr` of a list of such strings, as interpolated by
`f"... {list(self.tools.keys())}"`. -/
def pyListRepr (xs : List (List Char)) : List Char :=
  '[' :: (joinSep ((", ").toList) (xs.map pyStrRepr) ++ [']'])

/-- The synthesized output for an unregistered tool name
(`stream_run` lines 285-288):
`f"[Error] Tool '{t_name}' not found. Available: {list(self.tools.keys())}"`. -/
def notFoundMsg (name : List Char) (avail : List (List Char)) : List Char :=
  ("[Error] Tool ").toList ++ [sq] ++ name ++ [sq] ++
    (" not found. Available: ").toList ++ pyListRepr avail

/-- First-match association-list lookup; the Python registry is a dict whose
keys are unique (`register_tool` overwrites by key), so first match = the
dict lookup. -/
def lookupTool {β : Type} : List (List Char × β) → List Char → Option β
  | [], _ => none
  | (k, f) :: rest, n => if k = n then some f else lookupTool rest n

/-- One task of the dispatch batch in the non-raising model: a registered
tool runs `tool.call(args)`; a missing name yields the synthesized error
string. -/
def execTool {α : Type} (tools : List (List Char × (α → List Char)))
    (c : List Char × α) : List Char :=
  match lookupTool tools c.1 with
  | some f => f c.2
  | none => notFoundMsg c.1 (tools.map Prod.fst)

/-- `results = await asyncio.gather(*execution_tasks)`: `gather` returns the
results aligned with the order the tasks were submitted, regardless of the
order the tasks complete in. -/
def batchResults {α : Type} (tools : List (List Char × (α → List Char)))
    (calls : List (List Char × α)) : List (List Char) :=
  calls.map (execTool tools)

/-- `f"Tool '{tool_name}' Output:\n{result}"`. -/
def toolEntry (name r : List Char) : List Char :=
  ("Tool ").toList ++ [sq] ++ name ++ [sq] ++ (" Output:\n").toList ++ r

/-- The single merged user message appended after a batch
(`stream_run` lines 328-334). -/
def mergedUserMsg (pairs : List (List Char × List Char)) : Msg :=
  ⟨roleUser,
    toolRespStartL ++ ("\n").toList ++
      joinSep (("\n\n").toList) (pairs.map fun nr => toolEntry nr.1 nr.2) ++
      ("\n").toList ++ toolRespEndL⟩

/-- The tool phase of one iteration (`stream_run` lines 259-334): a
`tool_start` event per invocation before dispatch, the parallel dispatch,
then a `tool_response` event per result in invocation order, and the merged
user message. -/
def batchPhase {α : Type} (tools : List (List Char × (α → List Char)))
    (calls : List (List Char × α)) (it : Nat) (msgs1 : List Msg) :
    List (Event α) × List Msg :=
  if calls.isEmpty then ([], msgs1)
  else
    let results := batchResults tools calls
    (calls.map (fun c => Event.toolStart c.1 c.2 it) ++
      (calls.zip results).map (fun cr => Event.toolResponse cr.1.1 cr.2 it),
     msgs1 ++ [mergedUserMsg ((calls.map Prod.fst).zip results)])

/-- `messages[-1]["content"] = ...` (in-place mutation of the last dict). -/
def setLastContent : List Msg → List Char → List Msg
  | [], _ => []
  | [m], c => [⟨m.role, c⟩]
  | m :: rest, c => m :: setLastContent rest c

/-- The text after dropping the last `n` messages is kept: `messages[-n:]`. -/
def lastN {β : Type} (n : Nat) (l : List β) : List β := l.drop (l.length - n)

/-- The synthetic system note inserted by `_prune_messages`; its text records
the token estimate of the kept head and tail. -/
def pruneNote (est : List Msg → Nat) (msgs : List Msg) : Msg :=
  ⟨roleSystem,
    ("[System Note: Earlier conversation turns have been removed to save tokens. Current token usage: ").toList ++
      (Nat.repr (est (msgs.take 2 ++ lastN 6 msgs))).toList ++ [']']⟩

/-- `xSmartReactAgent._prune_messages`. -/
def pruneMessages (est : List Msg → Nat) (msgs : List Msg) : List Msg :=
  if msgs.length ≤ 8 then msgs
  else msgs.take 2 ++ [pruneNote est msgs] ++ lastN 6 msgs

/-- Result of `_force_summarize`: prediction, termination tag, and the
transcript (which the Python code mutates in place, so the loop's local
`messages` reflects both the overwritten last message and the appended
assistant turn). -/
structure ForceRes where
  pred : List Char
  term : List Char
  msgs : List Msg
deriving Repr, DecidableEq

/-- `xSmartReactAgent._force_summarize` (its prediction/termination/message
effects; question, ground truth and timing fields of `ResearchResult` do not
influence the loop's events beyond these). -/
def forceSummarize (llm : List Msg → List Char) (msgs : List Msg) : ForceRes :=
  let msgs2 := setLastContent msgs forcePromptL
  let resp := llm msgs2
  let msgs3 := msgs2 ++ [⟨roleAssistant, pyStrip resp⟩]
  if hasAnswer resp then ⟨extractAnswer resp, termForcedL, msgs3⟩
  else ⟨resp, termFormatErrL, msgs3⟩

/-- The think events of one turn (at most one). -/
def thinkEvents {α : Type} (resp : List Char) : List (Event α) :=
  match extractThink resp with
  | some t => if t.isEmpty then [] else [Event.think t]
  | none => []

/-- Outcome of the body of one `while` pass after the timeout check:
either the generator returns (`halt`) or the loop continues with an updated
transcript. -/
inductive StepRes (α : Type) where
  | halt (events : List (Event α))
  | cont (events : List (Event α)) (msgs : List Msg)
deriving Repr, DecidableEq

/-- One iteration of `stream_run`'s `while` body (lines 211-357), with `it`
the just-incremented iteration counter: status event, model call, truncation
at `<tool_response>`, assistant append, think event, answer check, tool
phase, then the token-budget policy (prune / force-summarize). -/
def iterStep {α : Type} (env : LoopEnv α) (msgs : List Msg) (it : Nat) :
    StepRes α :=
  let resp := truncResp (env.llm msgs)
  let msgs1 := msgs ++ [⟨roleAssistant, pyStrip resp⟩]
  let pre := Event.status (iterStatusL it) :: thinkEvents resp
  if hasAnswer resp then
    let p := extractAnswer resp
    .halt (pre ++ [Event.answer p, Event.finalAnswer p msgs1 it terminationAnswerL])
  else
    let bp := batchPhase env.tools (env.extractCalls resp) it msgs1
    if env.est bp.2 > env.maxTokens then
      if (it : Int) < (env.maxIterations : Int) - 3 then
        .cont (pre ++ bp.1 ++ [Event.status prunedStatusL])
          (pruneMessages env.est bp.2)
      else
        let fr := forceSummarize env.llm bp.2
        .halt (pre ++ bp.1 ++
          [Event.status tokenLimitStatusL, Event.answer fr.pred,
            Event.finalAnswer fr.pred fr.msgs it fr.term])
    else .cont (pre ++ bp.1) bp.2

/-- The `while iterations < self.max_iterations` loop.  The counter starts at
0 and increases by exactly 1 per pass, so the guard is equivalent to counting
the remaining passes down with fuel `maxIterations - iterations`: `fuel = 0`
is exactly `iterations = maxIterations`, the loop exit (lines 359-366). -/
def loopGo {α : Type} (env : LoopEnv α) : Nat → List Msg → Nat → List (Event α)
  | 0, msgs, it =>
    [Event.error maxIterContentL,
     Event.finalAnswer maxIterAnswerL msgs it maxIterTermL]
  | fuel + 1, msgs, it =>
    if env.timedOut it then [Event.timeout researchTimeoutL]
    else
      match iterStep env msgs (it + 1) with
      | .halt evs => evs
      | .cont evs msgs2 => evs ++ loopGo env fuel msgs2 (it + 1)

/-- `xSmartReactAgent.stream_run question`: the two pre-loop status events
(intent identification; the classified intent, an external collaborator
outcome carried in `env.intentStatus`), then the loop on the initial
transcript `[system, user]`. -/
def streamRun {α : Type} (env : LoopEnv α) (question : List Char) : List (Event α) :=
  Event.status identifyStatusL :: Event.status env.intentStatus ::
    loopGo env env.maxIterations
      [⟨roleSystem, env.systemPrompt⟩, ⟨roleUser, question⟩] 0

/-! ### Model gateway: `_call_llm`

One attempt of the underlying `chat.completions.create` call either raises
(`raise`) or returns a content field that may be `None` or a string
(`ret`).  The attempt outcomes are an oracle indexed by attempt number.
`_call_llm` accepts an attempt iff the content is non-`None` and its strip
is non-empty, and then returns the stripped content. -/

inductive LLMAttempt where
  | raise
  | ret (content : Option (List Char))

/-- The acceptance test `if content and content.strip():` together with the
returned value `content.strip()`. -/
def goodResp : LLMAttempt → Option (List Char)
  | .ret (some s) => if (pyStrip s).isEmpty then none else some (pyStrip s)
  | _ => none

structure CallRes where
  result : List Char
  sleeps : List Nat
  attempts : Nat
deriving Repr, DecidableEq

def llmFailMsgL : List Char := ("LLM call failed after all retries").toList

/-- `sleep_time = min(base_sleep_time * (2 ** attempt), 30)` with
`base_sleep_time = 1`. -/
def backoff (attempt : Nat) : Nat := min (1 * 2 ^ attempt) 30

/-- The retry loop of `_call_llm` from attempt number `attempt` on, with
`fuel` the number of loop passes left (`for attempt in range(max_retries)`
runs while `attempt < max_retries`, i.e. while `fuel = max_retries - attempt`
is positive; the counter increases by exactly 1 per pass, so the two forms
coincide).  It returns the result string, the backoff sleeps performed (in
order), and the total number of attempts made.  A sleep happens after every
unaccepted attempt except the last one of the budget
(`if attempt < max_retries - 1`). -/
def callLLMGo (oracle : Nat → LLMAttempt) (maxRetries : Nat) :
    Nat → Nat → CallRes
  | 0, attempt => ⟨llmFailMsgL, [], attempt⟩
  | fuel + 1, attempt =>
    match goodResp (oracle attempt) with
    | some s => ⟨s, [], attempt + 1⟩
    | none =>
      let rest := callLLMGo oracle maxRetries fuel (attempt + 1)
      ⟨rest.result,
        (if attempt < maxRetries - 1 then [backoff attempt] else []) ++ rest.sleeps,
        rest.attempts⟩

def defaultMaxRetries : Nat := 10

/-- `xSmartReactAgent._call_llm(messages)` with the default retry budget. -/
def callLLM (oracle : Nat → LLMAttempt) : CallRes :=
  callLLMGo oracle defaultMaxRetries defaultMaxRetries 0

/-- Smallest accepted attempt index in `[i, i + fuel)`, if any. -/
def firstGoodGo (oracle : Nat → LLMAttempt) : Nat → Nat → Option Nat
  | 0, _ => none
  | fuel + 1, i =>
    if (goodResp (oracle i)).isSome then some i
    else firstGoodGo oracle fuel (i + 1)

def firstGood (oracle : Nat → LLMAttempt) (maxRetries : Nat) : Option Nat :=
  firstGoodGo oracle maxRetries 0

/-! ### The raising dispatch: `asyncio.gather` without a handler

`stream_run` builds the batch tasks and runs
`results = await asyncio.gather(*execution_tasks)` (line 293) with the
default `return_exceptions=False` and with no enclosing `try`.  A task
coroutine is modelled as `Except`: `.error` is a raised exception.
`gatherE` delivers the full aligned result list only when every task
returns; as soon as some task raises, the `await` re-raises (the reported
exception is the first raising task in submission order here; which of
several concurrently failing tasks wins is a scheduling detail, immaterial
because propagation alone already destroys the batch) and the generator has
no handler, so the exception escapes `stream_run`. -/

def execToolE {α : Type}
    (tools : List (List Char × (α → Except (List Char) (List Char))))
    (c : List Char × α) : Except (List Char) (List Char) :=
  match lookupTool tools c.1 with
  | some f => f c.2
  | none => Except.ok (notFoundMsg c.1 (tools.map Prod.fst))

def gatherE : List (Except (List Char) (List Char)) →
    Except (List Char) (List (List Char))
  | [] => Except.ok []
  | Except.error e :: _ => Except.error e
  | Except.ok r :: rest => (gatherE rest).map (r :: ·)

def dispatchE {α : Type}
    (tools : List (List Char × (α → Except (List Char) (List Char))))
    (calls : List (List Char × α)) : Except (List Char) (List (List Char)) :=
  gatherE (calls.map (execToolE tools))

/-! ### Batch timing trace

The observable order of the tool phase, with the internal task completions
made explicit.  `stream_run` emits all `tool_start` events first (lines
266-289), then suspends on `asyncio.gather`, which returns only once every
task of the batch has completed — `resolved i` records the completion of
task `i` inside that await, in whatever real-time order the scheduler
produces — and only then does the `for i, result in enumerate(results)`
loop emit the `tool_response` events, in invocation order (lines 293-324). -/

inductive BatchEv where
  | started (tool : List Char)
  | resolved (idx : Nat)
  | finished (idx : Nat) (tool : List Char) (output : List Char)
deriving Repr, DecidableEq

def batchTrace {α : Type} (tools : List (List Char × (α → List Char)))
    (calls : List (List Char × α)) (order : List Nat) : List BatchEv :=
  calls.map (fun c => BatchEv.started c.1) ++
    order.map BatchEv.resolved ++
    calls.enum.map (fun ic => BatchEv.finished ic.1 ic.2.1 (execTool tools ic.2))

def isStarted : BatchEv → Bool
  | .started _ => true
  | _ => false

def isResolved : BatchEv → Bool
  | .resolved _ => true
  | _ => false

def isFinished : BatchEv → Bool
  | .finished _ _ _ => true
  | _ => false

/-- `evBefore p q tr`: every `p`-event strictly precedes every `q`-event. -/
def evBefore (p q : BatchEv → Bool) (tr : List BatchEv) : Prop :=
  ∀ i j : Fin tr.length, p (tr.get i) = true → q (tr.get j) = true →
    (i : Nat) < (j : Nat)

theorem evBefore_append (p q : BatchEv → Bool) (A B : List BatchEv)
    (hA : ∀ x ∈ A, q x = false) (hB : ∀ x ∈ B, p x = false) :
    evBefore p q (A ++ B) := by
  intro i j hp hq
  have hi := i.isLt
  have hj := j.isLt
  simp only [List.length_append] at hi hj
  simp only [List.get_eq_getElem] at hp hq
  have hiA : (i : Nat) < A.length := by
    by_contra hge
    push_neg at hge
    rw [List.getElem_append_right hge] at hp
    rw [hB _ (List.getElem_mem (by omega))] at hp
    exact Bool.noConfusion hp
  have hjB : A.length ≤ (j : Nat) := by
    by_contra hlt
    push_neg at hlt
    rw [List.getElem_append_left hlt] at hq
    rw [hA _ (List.getElem_mem hlt)] at hq
    exact Bool.noConfusion hq
  omega

/-! ### Further support lemmas -/

theorem beforeFirst_none_iff (p : List Char) :
    ∀ s : List Char, beforeFirst p s = none ↔ containsSub p s = false := by
  intro s
  induction s with
  | nil =>
    by_cases h : isPre p [] = true
    · simp [beforeFirst, containsSub, h]
    · simp [beforeFirst, containsSub, h, Bool.of_not_eq_true h]
  | cons c rest ih =>
    by_cases h : isPre p (c :: rest) = true
    · simp [beforeFirst, containsSub, h]
    · have h' : isPre p (c :: rest) = false := Bool.of_not_eq_true h
      simp [beforeFirst, containsSub, h', Option.map_eq_none', ih]

theorem containsSub_self (s : List Char) : containsSub s s = true :=
  containsSub_of_isPre s s ((isPre_iff s s).2 ⟨[], by simp⟩)

theorem joinSep_mem_decomp (sep : List Char) :
    ∀ (xs : List (List Char)) (x : List Char), x ∈ xs →
      ∃ a b, joinSep sep xs = a ++ x ++ b := by
  intro xs
  induction xs with
  | nil => intro x hx; simp at hx
  | cons y ys ih =>
    intro x hx
    rcases List.mem_cons.1 hx with rfl | hx'
    · cases ys with
      | nil => exact ⟨[], [], by simp [joinSep]⟩
      | cons z zs => exact ⟨[], sep ++ joinSep sep (z :: zs), by simp [joinSep]⟩
    · have hys : ys ≠ [] := by
        intro hcon
        rw [hcon] at hx'
        simp at hx'
      rcases ih x hx' with ⟨a, b, hab⟩
      cases ys with
      | nil => exact absurd rfl hys
      | cons z zs =>
        refine ⟨y ++ sep ++ a, b, ?_⟩
        simp only [joinSep, hab]
        simp [List.append_assoc]

/-- Every available tool name occurs verbatim in the not-found message for
any requested name. -/
theorem notFoundMsg_mentions (name : List Char) (avail : List (List Char))
    (n : List Char) (hn : n ∈ avail) :
    containsSub n (notFoundMsg name avail) = true := by
  have h1 : containsSub n (pyStrRepr n) = true := by
    have h0 : containsSub n (n ++ [sq]) = true :=
      containsSub_append_left n n [sq] (containsSub_self n)
    have := containsSub_append_right n [sq] (n ++ [sq]) h0
    simpa [pyStrRepr] using this
  rcases joinSep_mem_decomp ((", ").toList) (avail.map pyStrRepr) (pyStrRepr n)
      (List.mem_map.2 ⟨n, hn, rfl⟩) with ⟨a, b, hab⟩
  have h2 : containsSub n (pyListRepr avail) = true := by
    have hj : containsSub n (joinSep ((", ").toList) (avail.map pyStrRepr)) = true := by
      rw [hab]
      have := containsSub_append_right n a _ (containsSub_append_left n _ b h1)
      simpa [List.append_assoc] using this
    have hj2 : containsSub n (joinSep ((", ").toList) (avail.map pyStrRepr) ++ [']']) = true :=
      containsSub_append_left n _ [']'] hj
    have := containsSub_append_right n ['['] _ hj2
    simpa [pyListRepr] using this
  have := containsSub_append_right n
    (("[Error] Tool ").toList ++ [sq] ++ name ++ [sq] ++ (" not found. Available: ").toList)
    (pyListRepr avail) h2
  simpa [notFoundMsg, List.append_assoc] using this

/-! ### Event classification -/

def isFinalEv {α : Type} : Event α → Bool
  | .finalAnswer _ _ _ _ => true
  | _ => false

def isTimeoutEv {α : Type} : Event α → Bool
  | .timeout _ => true
  | _ => false

def isToolEv {α : Type} : Event α → Bool
  | .toolStart _ _ _ => true
  | .toolResponse _ _ _ => true
  | _ => false

theorem isFinalEv_false_of_isTimeoutEv {α : Type} (e : Event α)
    (h : isTimeoutEv e = true) : isFinalEv e = false := by
  cases e <;> simp_all [isTimeoutEv, isFinalEv]

theorem thinkEvents_flags {α : Type} (resp : List Char) :
    ∀ e ∈ (thinkEvents resp : List (Event α)),
      isFinalEv e = false ∧ isTimeoutEv e = false ∧ isToolEv e = false := by
  intro e he
  unfold thinkEvents at he
  rcases hx : extractThink resp with _ | t
  · rw [hx] at he; simp at he
  · rw [hx] at he
    by_cases ht : t.isEmpty
    · simp [ht] at he
    · simp [ht] at he
      subst he
      exact ⟨rfl, rfl, rfl⟩

theorem batchPhase_flags {α : Type} (tools : List (List Char × (α → List Char)))
    (calls : List (List Char × α)) (it : Nat) (msgs1 : List Msg) :
    ∀ e ∈ (batchPhase tools calls it msgs1).1,
      isFinalEv e = false ∧ isTimeoutEv e = false := by
  intro e he
  unfold batchPhase at he
  by_cases hc : calls.isEmpty
  · simp [hc] at he
  · simp only [hc, if_false, Bool.false_eq_true] at he
    rcases List.mem_append.1 he with h | h
    · rcases List.mem_map.1 h with ⟨c, _, rfl⟩
      exact ⟨rfl, rfl⟩
    · rcases List.mem_map.1 h with ⟨cr, _, rfl⟩
      exact ⟨rfl, rfl⟩

/-! ### Claim C4 -/

/-- C4 counterexample: the input `"<answer>"` contains an unclosed answer
delimiter, yet `_extract_answer` returns the empty string — the claimed
guarantee "the result is non-empty text" fails (nothing follows the open
delimiter, and `content.split("<answer>")[-1].strip()` is `""`). -/
theorem C4_counterexample :
    containsSub answerStartL (("<answer>").toList) = true ∧
    containsSub answerEndL (("<answer>").toList) = false ∧
    extractAnswer (("<answer>").toList) = [] := by
  exact ⟨by decide, by decide, by decide⟩

/-- C4 (amended): `_extract_answer` returns the stripped content between the
first matched open/close delimiter pair when one exists; with no open
delimiter it returns the trimmed text verbatim; with an open delimiter that
has no close delimiter after it, it returns the trimmed text after the last
open delimiter — that result never contains either delimiter and it never
throws (the embedding is total), but it is non-empty only iff some
non-whitespace character follows the last open delimiter (it is empty for
e.g. `"<answer>"`, which is what the correction removes from the original
claim). -/
theorem C4_extract_answer (s r m : List Char) :
    (afterFirst answerStartL s = some r → beforeFirst answerEndL r = some m →
      extractAnswer s = pyStrip m ∧
      ∃ a rest2, s = a ++ answerStartL ++ m ++ answerEndL ++ rest2) ∧
    (containsSub answerStartL s = false → extractAnswer s = pyStrip s) ∧
    (afterFirst answerStartL s = some r → beforeFirst answerEndL r = none →
      extractAnswer s = pyStrip (afterLast answerStartL s) ∧
      containsSub answerStartL (extractAnswer s) = false ∧
      containsSub answerEndL (extractAnswer s) = false ∧
      (extractAnswer s = [] ↔ ∀ c ∈ afterLast answerStartL s, isPySpace c = true)) := by
  refine ⟨?_, ?_, ?_⟩
  · intro h1 h2
    constructor
    · simp [extractAnswer, h1, h2]
    · rcases beforeFirst_decomp answerEndL r m h2 with ⟨r2, _, hr⟩
      rcases afterFirst_decomp answerStartL s r h1 with ⟨a, hs⟩
      refine ⟨a, r2, ?_⟩
      rw [hs, hr]
      simp [List.append_assoc]
  · intro h
    unfold extractAnswer
    rw [(afterFirst_none_iff answerStartL s).2 h]
  · intro h1 h2
    have hrw : extractAnswer s = pyStrip (afterLast answerStartL s) := by
      simp [extractAnswer, h1, h2]
    have hopen : containsSub answerStartL (extractAnswer s) = false := by
      rw [hrw]
      cases hcc : containsSub answerStartL (pyStrip (afterLast answerStartL s)) with
      | false => rfl
      | true =>
        have := containsSub_of_containsSub_pyStrip answerStartL (afterLast answerStartL s) hcc
        rw [afterLast_no_occurrence answerStartL (by decide) s] at this
        exact Bool.noConfusion this
    have hclose : containsSub answerEndL (extractAnswer s) = false := by
      rw [hrw]
      have hnr : containsSub answerEndL r = false := (beforeFirst_none_iff answerEndL r).1 h2
      rcases afterLast_suffix_of_afterFirst answerStartL s r h1 with ⟨a, ha⟩
      cases hcc : containsSub answerEndL (pyStrip (afterLast answerStartL s)) with
      | false => rfl
      | true =>
        have h3 := containsSub_of_containsSub_pyStrip answerEndL (afterLast answerStartL s) hcc
        have h4 := containsSub_append_right answerEndL a _ h3
        rw [← ha, hnr] at h4
        exact Bool.noConfusion h4
    refine ⟨hrw, hopen, hclose, ?_⟩
    rw [hrw]
    exact pyStrip_eq_nil_iff (afterLast answerStartL s)

/-- C4 witness: the three paths of the amended theorem at concrete inputs. -/
theorem C4_witness :
    extractAnswer (("<answer> 42 </answer>x").toList) = ("42").toList ∧
    extractAnswer ((" plain ").toList) = ("plain").toList ∧
    extractAnswer (("x<answer> tail").toList) = ("tail").toList ∧
    containsSub answerStartL (extractAnswer (("x<answer> tail").toList)) = false := by
  refine ⟨?_, ?_, ?_, ?_⟩
  · exact ((C4_extract_answer (("<answer> 42 </answer>x").toList)
      ((" 42 </answer>x").toList) ((" 42 ").toList)).1
      (by decide) (by decide)).1.trans (by decide)
  · exact ((C4_extract_answer ((" plain ").toList) [] []).2.1 (by decide)).trans (by decide)
  · exact (((C4_extract_answer (("x<answer> tail").toList) ((" tail").toList) []).2.2
      (by decide) (by decide)).1).trans (by decide)
  · exact ((C4_extract_answer (("x<answer> tail").toList) ((" tail").toList) []).2.2
      (by decide) (by decide)).2.1

/-! ### Claims C10 and C7 -/

/-- C10: `_prune_messages` returns transcripts of at most 8 messages
unchanged (`if len(messages) <= 8: return messages`), so even when the token
estimate exceeds the limit, pruning such a transcript is a no-op and the
token estimate is unchanged by it. -/
theorem C10_prune_noop (est : List Msg → Nat) (msgs : List Msg)
    (h : msgs.length ≤ 8) :
    pruneMessages est msgs = msgs ∧
    est (pruneMessages est msgs) = est msgs := by
  have heq : pruneMessages est msgs = msgs := by
    simp [pruneMessages, h]
  exact ⟨heq, by rw [heq]⟩

def c10Est : List Msg → Nat := fun l => 100 * l.length

def c10Msgs : List Msg :=
  [⟨roleSystem, ("s").toList⟩, ⟨roleUser, ("q").toList⟩,
   ⟨roleAssistant, ("a").toList⟩]

/-- C10 witness: a 3-message transcript whose estimate (300) exceeds a limit
of 256 is returned unchanged by pruning, with the estimate unreduced. -/
theorem C10_witness :
    c10Est c10Msgs > 256 ∧
    pruneMessages c10Est c10Msgs = c10Msgs ∧
    c10Est (pruneMessages c10Est c10Msgs) = c10Est c10Msgs := by
  refine ⟨by decide, (C10_prune_noop c10Est c10Msgs (by decide)).1,
    (C10_prune_noop c10Est c10Msgs (by decide)).2⟩

/-- C7 counterexample environment: a model turn with no tags and no tool
calls, a token estimate always over the limit, and a large remaining
iteration budget, so the pruning branch of `stream_run` (line 340-343) is
taken on a 3-message transcript. -/
def c7Env : LoopEnv Unit where
  llm := fun _ => ("thinking only").toList
  extractCalls := fun _ => []
  tools := []
  timedOut := fun _ => false
  est := fun _ => 1000
  maxIterations := 10
  maxTokens := 100
  systemPrompt := ("sys").toList
  intentStatus := ("intent").toList

def c7Msgs : List Msg :=
  [⟨roleSystem, ("sys").toList⟩, ⟨roleUser, ("question").toList⟩]

def c7Msgs1 : List Msg := c7Msgs ++ [⟨roleAssistant, ("thinking only").toList⟩]

/-- C7 counterexample: the token estimate exceeds the limit and more than 3
iterations remain, so the loop takes the pruning branch (the
`"Context pruned to save tokens."` status event is emitted) — but the
resulting transcript is the unchanged 3-message transcript: it does not
consist of two head messages, a synthetic system note, and six tail
messages, because `_prune_messages` leaves transcripts of ≤ 8 messages
untouched. -/
theorem C7_counterexample :
    c7Env.est c7Msgs1 > c7Env.maxTokens ∧
    ((1 : Int) < (c7Env.maxIterations : Int) - 3) ∧
    iterStep c7Env c7Msgs 1 =
      StepRes.cont [Event.status (iterStatusL 1), Event.status prunedStatusL]
        c7Msgs1 ∧
    c7Msgs1.length = 3 ∧
    pruneMessages c7Env.est c7Msgs1 = c7Msgs1 ∧
    (c7Msgs1.filter (fun m => isPre (("[System Note:").toList) m.content)) = [] := by
  refine ⟨by decide, by decide, by decide, by decide, by decide, by decide⟩

/-- C7 (amended): when the token estimate exceeds the limit with more than 3
iterations of budget remaining, the loop replaces the transcript by
`_prune_messages` of it and emits the pruned status; `_prune_messages`
keeps a transcript of at most 8 messages unchanged, and restructures a
longer one into exactly the first two messages verbatim, one synthetic
system note (role `system`, recording the new token estimate of head+tail),
and the most recent six messages; in every case the result has at most 9
messages and preserves the first two messages verbatim. -/
theorem C7_prune_policy (est : List Msg → Nat) (msgs : List Msg) :
    ((pruneMessages est msgs).length ≤ 9 ∧
     (pruneMessages est msgs).take 2 = msgs.take 2 ∧
     (msgs.length ≤ 8 → pruneMessages est msgs = msgs) ∧
     (8 < msgs.length →
       pruneMessages est msgs = msgs.take 2 ++ [pruneNote est msgs] ++ lastN 6 msgs ∧
       (pruneMessages est msgs).length = 9 ∧
       (pruneNote est msgs).role = roleSystem ∧
       containsSub ((Nat.repr (est (msgs.take 2 ++ lastN 6 msgs))).toList)
         (pruneNote est msgs).content = true)) ∧
    (∀ (α : Type) (env : LoopEnv α) (msgs0 : List Msg) (it : Nat),
      hasAnswer (truncResp (env.llm msgs0)) = false →
      env.est (batchPhase env.tools (env.extractCalls (truncResp (env.llm msgs0))) it
        (msgs0 ++ [⟨roleAssistant, pyStrip (truncResp (env.llm msgs0))⟩])).2 > env.maxTokens →
      ((it : Int) < (env.maxIterations : Int) - 3) →
      iterStep env msgs0 it =
        StepRes.cont
          ((Event.status (iterStatusL it) :: thinkEvents (truncResp (env.llm msgs0))) ++
            (batchPhase env.tools (env.extractCalls (truncResp (env.llm msgs0))) it
              (msgs0 ++ [⟨roleAssistant, pyStrip (truncResp (env.llm msgs0))⟩])).1 ++
            [Event.status prunedStatusL])
          (pruneMessages env.est
            (batchPhase env.tools (env.extractCalls (truncResp (env.llm msgs0))) it
              (msgs0 ++ [⟨roleAssistant, pyStrip (truncResp (env.llm msgs0))⟩])).2)) := by
  constructor
  · by_cases h8 : msgs.length ≤ 8
    · have heq : pruneMessages est msgs = msgs := by simp [pruneMessages, h8]
      refine ⟨by rw [heq]; omega, by rw [heq], fun _ => heq, fun hgt => absurd hgt (by omega)⟩
    · push_neg at h8
      have heq : pruneMessages est msgs =
          msgs.take 2 ++ [pruneNote est msgs] ++ lastN 6 msgs := by
        simp [pruneMessages]
        omega
      have hlen2 : (msgs.take 2).length = 2 := by
        rw [List.length_take]
        omega
      have hlen6 : (lastN 6 msgs).length = 6 := by
        simp only [lastN, List.length_drop]
        omega
      have hlen : (pruneMessages est msgs).length = 9 := by
        rw [heq]
        simp [hlen2, hlen6]
      refine ⟨by omega, ?_, fun hle => absurd hle (by omega), fun _ => ⟨heq, hlen, rfl, ?_⟩⟩
      · rw [heq]
        have hl1 : (2 : Nat) ≤ (msgs.take 2 ++ [pruneNote est msgs]).length := by
          rw [List.length_append, hlen2]
          omega
        rw [List.take_append_of_le_length hl1]
        rw [List.take_append_of_le_length (by omega)]
        simp [List.take_take]
      · simp only [pruneNote]
        have := containsSub_append_left
          ((Nat.repr (est (msgs.take 2 ++ lastN 6 msgs))).toList)
          ((Nat.repr (est (msgs.take 2 ++ lastN 6 msgs))).toList) [']']
          (containsSub_self _)
        have h2 := containsSub_append_right
          ((Nat.repr (est (msgs.take 2 ++ lastN 6 msgs))).toList)
          (("[System Note: Earlier conversation turns have been removed to save tokens. Current token usage: ").toList)
          _ this
        simpa [List.append_assoc] using h2
  · intro α env msgs0 it h1 h2 h3
    simp only [iterStep, h1, Bool.false_eq_true, if_false]
    rw [if_pos h2, if_pos h3]

/-! ### Claim C9 -/

theorem firstGoodGo_some_spec (oracle : Nat → LLMAttempt) :
    ∀ fuel a i, firstGoodGo oracle fuel a = some i →
      a ≤ i ∧ i < a + fuel ∧ (goodResp (oracle i)).isSome = true ∧
      ∀ j, a ≤ j → j < i → goodResp (oracle j) = none := by
  intro fuel
  induction fuel with
  | zero =>
    intro a i h
    simp [firstGoodGo] at h
  | succ n ih =>
    intro a i h
    by_cases hg : (goodResp (oracle a)).isSome = true
    · rw [firstGoodGo, if_pos hg] at h
      have hai : a = i := by injection h
      subst hai
      exact ⟨le_refl _, by omega, hg, fun j hj1 hj2 => by omega⟩
    · rw [firstGoodGo, if_neg hg] at h
      have hrec := ih (a + 1) i h
      refine ⟨by omega, by omega, hrec.2.2.1, ?_⟩
      intro j hj1 hj2
      by_cases hja : j = a
      · subst hja
        exact Option.not_isSome_iff_eq_none.1 hg
      · exact hrec.2.2.2 j (by omega) hj2

theorem firstGoodGo_none_spec (oracle : Nat → LLMAttempt) :
    ∀ fuel a, firstGoodGo oracle fuel a = none →
      ∀ j, a ≤ j → j < a + fuel → goodResp (oracle j) = none := by
  intro fuel
  induction fuel with
  | zero =>
    intro a _ j hj1 hj2
    omega
  | succ n ih =>
    intro a h j hj1 hj2
    by_cases hg : (goodResp (oracle a)).isSome = true
    · rw [firstGoodGo, if_pos hg] at h
      exact absurd h (by simp)
    · rw [firstGoodGo, if_neg hg] at h
      by_cases hja : j = a
      · subst hja
        exact Option.not_isSome_iff_eq_none.1 hg
      · exact ih (a + 1) h j (by omega) (by omega)

/-- Closed form of the `_call_llm` retry loop under the loop invariant
`maxRetries = attempt + fuel`: the first accepted attempt (if any within the
budget) determines the result, the number of attempts, and the backoff
sleeps; otherwise the sentinel is returned after the full budget with a
sleep after every attempt but the last. -/
theorem callLLMGo_spec (oracle : Nat → LLMAttempt) (maxRetries : Nat) :
    ∀ fuel a, maxRetries = a + fuel →
      callLLMGo oracle maxRetries fuel a =
        (match firstGoodGo oracle fuel a with
         | some i =>
           ⟨(goodResp (oracle i)).getD [], (List.range' a (i - a)).map backoff, i + 1⟩
         | none =>
           ⟨llmFailMsgL, (List.range' a (maxRetries - 1 - a)).map backoff,
             maxRetries⟩ : CallRes) := by
  intro fuel
  induction fuel with
  | zero =>
    intro a hinv
    have h1 : maxRetries - 1 - a = 0 := by omega
    simp [callLLMGo, firstGoodGo, h1, List.range', hinv]
  | succ n ih =>
    intro a hinv
    cases hg : goodResp (oracle a) with
    | some s =>
      have hcond : (goodResp (oracle a)).isSome = true := by rw [hg]; rfl
      rw [callLLMGo, firstGoodGo, if_pos hcond]
      simp [hg, List.range']
    | none =>
      have hcond : ¬ ((goodResp (oracle a)).isSome = true) := by rw [hg]; simp
      rw [callLLMGo, firstGoodGo, if_neg hcond]
      rw [hg]
      rw [ih (a + 1) (by omega : maxRetries = a + 1 + n)]
      cases hf : firstGoodGo oracle n (a + 1) with
      | some i =>
        obtain ⟨hp1, hp2, hp3, hp4⟩ := firstGoodGo_some_spec oracle n (a + 1) i hf
        have hcond2 : a < maxRetries - 1 := by omega
        have hr : i - a = (i - (a + 1)) + 1 := by omega
        simp [hr, hcond2, List.range']
      | none =>
        by_cases hlast : 0 < n
        · have hcond2 : a < maxRetries - 1 := by omega
          have hr : maxRetries - 1 - a = (maxRetries - 1 - (a + 1)) + 1 := by omega
          simp [hr, hcond2, List.range']
        · have hn : n = 0 := by omega
          subst hn
          have hcond2 : ¬ (a < maxRetries - 1) := by omega
          have h1 : maxRetries - 1 - a = 0 := by omega
          have h2 : maxRetries - 1 - (a + 1) = 0 := by omega
          simp [h1, h2, hcond2, List.range', callLLMGo]

/-- C9: `_call_llm` with its default budget makes at most 10 attempts; it
accepts the first attempt whose completion neither raised nor was
empty/whitespace, returning its stripped content immediately regardless of
content (so it retries only on exceptions or empty responses); between
consecutive attempts it sleeps `min(1 * 2^attempt, 30)` time units (no sleep
after the final attempt of the budget); and if every attempt fails it
returns the sentinel string `"LLM call failed after all retries"` instead of
raising. -/
theorem C9_gateway (oracle : Nat → LLMAttempt) :
    (callLLM oracle).attempts ≤ 10 ∧
    (∀ i, firstGood oracle 10 = some i →
      i < 10 ∧ (goodResp (oracle i)).isSome = true ∧
      (∀ j, j < i → goodResp (oracle j) = none) ∧
      callLLM oracle =
        ⟨(goodResp (oracle i)).getD [], (List.range i).map backoff, i + 1⟩) ∧
    (firstGood oracle 10 = none →
      (∀ j, j < 10 → goodResp (oracle j) = none) ∧
      callLLM oracle = ⟨llmFailMsgL, (List.range 9).map backoff, 10⟩) ∧
    (∀ a, backoff a = min (1 * 2 ^ a) 30) := by
  have hcall : callLLM oracle = callLLMGo oracle 10 10 0 := rfl
  have hspec := callLLMGo_spec oracle 10 10 0 (by omega)
  refine ⟨?_, ?_, ?_, fun a => rfl⟩
  · rw [hcall, hspec]
    cases hfg : firstGoodGo oracle 10 0 with
    | some i =>
      obtain ⟨_, hi, _, _⟩ := firstGoodGo_some_spec oracle 10 0 i hfg
      simp only [hfg]
      show i + 1 ≤ 10
      omega
    | none =>
      simp only [hfg]
      show 10 ≤ 10
      omega
  · intro i hfg
    have hfg' : firstGoodGo oracle 10 0 = some i := hfg
    obtain ⟨_, hi, hgood, hmin⟩ := firstGoodGo_some_spec oracle 10 0 i hfg'
    refine ⟨by omega, hgood, fun j hj => hmin j (by omega) hj, ?_⟩
    rw [hcall, hspec]
    simp [hfg', List.range_eq_range']
  · intro hfg
    have hfg' : firstGoodGo oracle 10 0 = none := hfg
    refine ⟨fun j hj => firstGoodGo_none_spec oracle 10 0 hfg' j (by omega) (by omega), ?_⟩
    rw [hcall, hspec]
    simp [hfg', List.range_eq_range']

/-- C9 witness oracle: attempt 0 raises, attempt 1 returns whitespace-only
content, attempt 2 returns `"  ok  "`. -/
def c9Oracle : Nat → LLMAttempt := fun i =>
  if i = 0 then .raise
  else if i = 1 then .ret (some (("   ").toList))
  else .ret (some (("  ok  ").toList))

/-- C9 witness: with two bad attempts then a good one, `_call_llm` returns
the stripped content `"ok"` after 3 attempts, having slept 1 then 2 units. -/
theorem C9_witness :
    firstGood c9Oracle 10 = some 2 ∧
    callLLM c9Oracle = ⟨("ok").toList, [1, 2], 3⟩ := by
  have h := (C9_gateway c9Oracle).2.1 2 (by decide)
  exact ⟨by decide, h.2.2.2.trans (by decide)⟩

/-! ### Claim C1 -/

deriving instance DecidableEq for Except

/-- The value a task returned normally with (arbitrary for a raising task,
which never reaches the result list). -/
def getOk : Except (List Char) (List Char) → List Char
  | Except.ok r => r
  | Except.error _ => []

def isOkE : Except (List Char) (List Char) → Bool
  | Except.ok _ => true
  | Except.error _ => false

theorem gatherE_all_ok (xs : List (Except (List Char) (List Char)))
    (h : ∀ x ∈ xs, isOkE x = true) : gatherE xs = Except.ok (xs.map getOk) := by
  induction xs with
  | nil => rfl
  | cons x rest ih =>
    cases x with
    | error e =>
      have := h _ (List.mem_cons_self _ rest)
      simp [isOkE] at this
    | ok r =>
      have hrest := ih (fun y hy => h y (List.mem_cons_of_mem _ hy))
      simp [gatherE, hrest, getOk, Except.map]

theorem gatherE_error (xs : List (Except (List Char) (List Char)))
    (x : Except (List Char) (List Char)) (hx : x ∈ xs) (e : List Char)
    (hxe : x = Except.error e) : ∃ e2, gatherE xs = Except.error e2 := by
  induction xs with
  | nil => simp at hx
  | cons y rest ih =>
    cases y with
    | error e' => exact ⟨e', rfl⟩
    | ok r =>
      rcases List.mem_cons.1 hx with rfl | hx'
      · exact absurd hxe (by simp)
      · rcases ih hx' with ⟨e2, he2⟩
        exact ⟨e2, by simp [gatherE, he2, Except.map]⟩

/-- C1 counterexample batch: the registered tool `boom` raises
`ZeroDivisionError`, its sibling `echo` returns normally. -/
def c1Tools : List (List Char × (Unit → Except (List Char) (List Char))) :=
  [(("boom").toList, fun _ => Except.error (("ZeroDivisionError: division by zero").toList)),
   (("echo").toList, fun _ => Except.ok (("sibling result").toList))]

def c1Calls : List (List Char × Unit) :=
  [(("boom").toList, ()), (("echo").toList, ())]

/-- C1 counterexample: `stream_run` awaits `asyncio.gather` with the default
`return_exceptions=False` and no enclosing `try`, so the raised exception
propagates: no result list is produced at all — the raising call is not
converted into a failed ToolResult, and the sibling's result is lost with
the whole batch (the run aborts instead of continuing). -/
theorem C1_counterexample :
    dispatchE c1Tools c1Calls =
      Except.error (("ZeroDivisionError: division by zero").toList) ∧
    isOkE (Except.map (fun _ => []) (dispatchE c1Tools c1Calls)) = false := by
  exact ⟨by decide, by decide⟩

/-- C1 (amended): the dispatcher converts only *missing tool names* into
synthesized failed-result strings without aborting the batch; an exception
actually raised by a registered tool's `call` is not caught at dispatch
level — `asyncio.gather` re-raises it and `stream_run` has no handler, so
the run aborts and the sibling invocations' results are not delivered.  When
every resolved tool returns normally, the batch yields one aligned result
per invocation.  (Exception isolation for tool internals lives inside the
individual tool implementations, which catch their own errors and return
error strings.) -/
theorem C1_dispatch_exceptions {α : Type}
    (tools : List (List Char × (α → Except (List Char) (List Char))))
    (calls : List (List Char × α)) :
    ((∀ c ∈ calls, isOkE (execToolE tools c) = true) →
      ∃ rs, dispatchE tools calls = Except.ok rs ∧ rs.length = calls.length ∧
        ∀ i (h : i < calls.length) (h2 : i < rs.length),
          execToolE tools calls[i] = Except.ok rs[i]) ∧
    (∀ c ∈ calls, ∀ e, execToolE tools c = Except.error e →
      ∃ e2, dispatchE tools calls = Except.error e2) ∧
    (∀ c ∈ calls, lookupTool tools c.1 = none →
      execToolE tools c = Except.ok (notFoundMsg c.1 (tools.map Prod.fst))) := by
  refine ⟨?_, ?_, ?_⟩
  · intro h
    refine ⟨(calls.map (execToolE tools)).map getOk, ?_, by simp, ?_⟩
    · exact gatherE_all_ok _ (by
        intro x hx
        rcases List.mem_map.1 hx with ⟨c, hc, rfl⟩
        exact h c hc)
    · intro i hi h2
      have hok := h calls[i] (List.getElem_mem hi)
      cases hex : execToolE tools calls[i] with
      | error e => rw [hex] at hok; simp [isOkE] at hok
      | ok r =>
        congr 1
        simp only [List.getElem_map]
        rw [hex]
        rfl
  · intro c hc e he
    exact gatherE_error _ (execToolE tools c)
      (List.mem_map.2 ⟨c, hc, rfl⟩) e he
  · intro c _ hl
    simp [execToolE, hl]

/-- C1 witness: the three parts of the amended theorem at concrete batches
(an all-normal batch including a missing tool; the raising batch of the
counterexample; a missing-tool invocation). -/
theorem C1_witness :
    (∃ rs, dispatchE (c1Tools.drop 1) c1Calls = Except.ok rs ∧
      rs.length = c1Calls.length ∧
      ∀ i (h : i < c1Calls.length) (h2 : i < rs.length),
        execToolE (c1Tools.drop 1) c1Calls[i] = Except.ok rs[i]) ∧
    (∃ e2, dispatchE c1Tools c1Calls = Except.error e2) ∧
    execToolE (c1Tools.drop 1) (c1Calls.getD 0 (([]), ())) =
      Except.ok (notFoundMsg (("boom").toList) [("echo").toList]) := by
  refine ⟨?_, ?_, ?_⟩
  · exact (C1_dispatch_exceptions (c1Tools.drop 1) c1Calls).1 (by decide)
  · exact (C1_dispatch_exceptions c1Tools c1Calls).2.1
      (("boom").toList, ()) (by decide)
      (("ZeroDivisionError: division by zero").toList) (by decide)
  · exact ((C1_dispatch_exceptions (c1Tools.drop 1) c1Calls).2.2
      (c1Calls.getD 0 (([]), ())) (by decide) (by decide)).trans (by decide)

/-! ### Claim C6 -/

/-- C6: for every batch (any mix of registered and unregistered names), the
dispatch of `stream_run` produces exactly one result per invocation, aligned
by index with the invocation list (`asyncio.gather` returns results in task
submission order regardless of completion timing, and the feedback loop
enumerates them in that order); an invocation whose name is not registered
yields the synthesized failure string, which starts with `"[Error] Tool "`
and mentions every available tool name, without affecting any sibling's
result; a registered invocation's result is exactly its tool's output; and
the whole batch is merged into the single tool-result user message in that
same invocation order. -/
theorem C6_dispatch_alignment {α : Type}
    (tools : List (List Char × (α → List Char)))
    (calls : List (List Char × α)) (it : Nat) (msgs1 : List Msg) :
    (batchResults tools calls).length = calls.length ∧
    (∀ i (hc : i < calls.length) (hr : i < (batchResults tools calls).length),
      (batchResults tools calls)[i] = execTool tools calls[i] ∧
      (lookupTool tools calls[i].1 = none →
        (batchResults tools calls)[i] =
          notFoundMsg calls[i].1 (tools.map Prod.fst) ∧
        isPre (("[Error] Tool ").toList) (batchResults tools calls)[i] = true ∧
        ∀ n ∈ tools.map Prod.fst,
          containsSub n (batchResults tools calls)[i] = true) ∧
      (∀ f, lookupTool tools calls[i].1 = some f →
        (batchResults tools calls)[i] = f calls[i].2)) ∧
    (calls ≠ [] →
      (batchPhase tools calls it msgs1).2 =
        msgs1 ++ [mergedUserMsg ((calls.map Prod.fst).zip (batchResults tools calls))]) := by
  refine ⟨by simp [batchResults], ?_, ?_⟩
  · intro i hc hr
    have hidx : (batchResults tools calls)[i] = execTool tools calls[i] := by
      simp [batchResults]
    refine ⟨hidx, ?_, ?_⟩
    · intro hnone
      have hval : (batchResults tools calls)[i] =
          notFoundMsg calls[i].1 (tools.map Prod.fst) := by
        rw [hidx]
        simp [execTool, hnone]
      refine ⟨hval, ?_, ?_⟩
      · rw [hval]
        refine (isPre_iff _ _).2 ⟨[sq] ++ calls[i].1 ++ [sq] ++
          (" not found. Available: ").toList ++ pyListRepr (tools.map Prod.fst), ?_⟩
        simp [notFoundMsg, List.append_assoc]
      · intro n hn
        rw [hval]
        exact notFoundMsg_mentions calls[i].1 (tools.map Prod.fst) n hn
    · intro f hf
      rw [hidx]
      simp [execTool, hf]
  · intro hne
    have : calls.isEmpty = false := by
      cases calls with
      | nil => exact absurd rfl hne
      | cons c cs => rfl
    simp [batchPhase, this]

def c6Tools : List (List Char × (Unit → List Char)) :=
  [(("search").toList, fun _ => ("RESULT").toList)]

def c6Calls : List (List Char × Unit) :=
  [(("search").toList, ()), (("ghost").toList, ())]

/-- C6 witness: a mixed batch of the registered `search` and the
unregistered `ghost`: two results, in invocation order, the second being the
synthesized error string that names `search`. -/
theorem C6_witness :
    (batchResults c6Tools c6Calls).length = 2 ∧
    (batchResults c6Tools c6Calls).get ⟨0, by decide⟩ = ("RESULT").toList ∧
    (batchResults c6Tools c6Calls).get ⟨1, by decide⟩ =
      notFoundMsg (("ghost").toList) [("search").toList] ∧
    containsSub (("search").toList)
      ((batchResults c6Tools c6Calls).get ⟨1, by decide⟩) = true := by
  have h := C6_dispatch_alignment c6Tools c6Calls 1 []
  refine ⟨h.1.trans (by decide), ?_, ?_, ?_⟩
  · have h0 := (h.2.1 0 (by decide) (by decide)).2.2
      (fun _ => ("RESULT").toList) (by decide)
    exact h0.trans (by decide)
  · have h1 := ((h.2.1 1 (by decide) (by decide)).2.1 (by decide)).1
    exact h1.trans (by decide)
  · exact ((h.2.1 1 (by decide) (by decide)).2.1 (by decide)).2.2
      (("search").toList) (by decide)

/-! ### Claim C3 -/

def c3Tools : List (List Char × (Unit → List Char)) :=
  [(("a").toList, fun _ => ("ra").toList), (("b").toList, fun _ => ("rb").toList)]

def c3Calls : List (List Char × Unit) :=
  [(("a").toList, ()), (("b").toList, ())]

/-- C3 counterexample: in a two-call batch in which task 0 completes before
task 1, the `tool_response` event for invocation 0 is nevertheless emitted
only *after* task 1 (the last of the batch) has also resolved, because
`stream_run` emits no `tool_response` until `asyncio.gather` has joined the
whole batch — refuting "emitted after that individual result resolves, not
only after the whole batch has completed". -/
theorem C3_counterexample :
    batchTrace c3Tools c3Calls [0, 1] =
      [BatchEv.started (("a").toList), BatchEv.started (("b").toList),
       BatchEv.resolved 0, BatchEv.resolved 1,
       BatchEv.finished 0 (("a").toList) (("ra").toList),
       BatchEv.finished 1 (("b").toList) (("rb").toList)] ∧
    (batchTrace c3Tools c3Calls [0, 1]).indexOf (BatchEv.resolved 1) <
      (batchTrace c3Tools c3Calls [0, 1]).indexOf
        (BatchEv.finished 0 (("a").toList) (("ra").toList)) := by
  exact ⟨by decide, by decide⟩

/-- C3 (amended): for every batch and every completion order of the parallel
tasks, every `tool_start` event is emitted before any task resolution and
before any `tool_response` event; every `tool_response` event is emitted
only after the entire batch has resolved (each resolution precedes each
`tool_response`); and the `tool_response` events appear in invocation order,
one per invocation, carrying that invocation's result. -/
theorem C3_batch_ordering {α : Type}
    (tools : List (List Char × (α → List Char)))
    (calls : List (List Char × α)) (order : List Nat) :
    evBefore isStarted isResolved (batchTrace tools calls order) ∧
    evBefore isStarted isFinished (batchTrace tools calls order) ∧
    evBefore isResolved isFinished (batchTrace tools calls order) ∧
    (batchTrace tools calls order).filter isFinished =
      calls.enum.map (fun ic => BatchEv.finished ic.1 ic.2.1 (execTool tools ic.2)) := by
  have hS : ∀ x ∈ calls.map (fun c => BatchEv.started c.1), isStarted x = true := by
    intro x hx
    rcases List.mem_map.1 hx with ⟨c, _, rfl⟩
    rfl
  have hSr : ∀ x ∈ calls.map (fun c => BatchEv.started c.1), isResolved x = false := by
    intro x hx
    rcases List.mem_map.1 hx with ⟨c, _, rfl⟩
    rfl
  have hSf : ∀ x ∈ calls.map (fun c => BatchEv.started c.1), isFinished x = false := by
    intro x hx
    rcases List.mem_map.1 hx with ⟨c, _, rfl⟩
    rfl
  have hRs : ∀ x ∈ order.map BatchEv.resolved, isStarted x = false := by
    intro x hx
    rcases List.mem_map.1 hx with ⟨c, _, rfl⟩
    rfl
  have hRf : ∀ x ∈ order.map BatchEv.resolved, isFinished x = false := by
    intro x hx
    rcases List.mem_map.1 hx with ⟨c, _, rfl⟩
    rfl
  have hFs : ∀ x ∈ calls.enum.map
      (fun ic => BatchEv.finished ic.1 ic.2.1 (execTool tools ic.2)),
      isStarted x = false := by
    intro x hx
    rcases List.mem_map.1 hx with ⟨c, _, rfl⟩
    rfl
  have hFr : ∀ x ∈ calls.enum.map
      (fun ic => BatchEv.finished ic.1 ic.2.1 (execTool tools ic.2)),
      isResolved x = false := by
    intro x hx
    rcases List.mem_map.1 hx with ⟨c, _, rfl⟩
    rfl
  have hFt : ∀ x ∈ calls.enum.map
      (fun ic => BatchEv.finished ic.1 ic.2.1 (execTool tools ic.2)),
      isFinished x = true := by
    intro x hx
    rcases List.mem_map.1 hx with ⟨c, _, rfl⟩
    rfl
  refine ⟨?_, ?_, ?_, ?_⟩
  · have h1 := evBefore_append isStarted isResolved
      (calls.map (fun c => BatchEv.started c.1))
      (order.map BatchEv.resolved ++ calls.enum.map
        (fun ic => BatchEv.finished ic.1 ic.2.1 (execTool tools ic.2)))
      hSr
      (by
        intro x hx
        rcases List.mem_append.1 hx with h | h
        · exact hRs x h
        · exact hFs x h)
    simpa [batchTrace] using h1
  · have h2 := evBefore_append isStarted isFinished
      (calls.map (fun c => BatchEv.started c.1))
      (order.map BatchEv.resolved ++ calls.enum.map
        (fun ic => BatchEv.finished ic.1 ic.2.1 (execTool tools ic.2)))
      hSf
      (by
        intro x hx
        rcases List.mem_append.1 hx with h | h
        · exact hRs x h
        · exact hFs x h)
    simpa [batchTrace] using h2
  · have := evBefore_append isResolved isFinished
      (calls.map (fun c => BatchEv.started c.1) ++ order.map BatchEv.resolved)
      (calls.enum.map (fun ic => BatchEv.finished ic.1 ic.2.1 (execTool tools ic.2)))
      (by
        intro x hx
        rcases List.mem_append.1 hx with h | h
        · exact hSf x h
        · exact hRf x h)
      hFr
    simpa [batchTrace, List.append_assoc] using this
  · unfold batchTrace
    rw [List.filter_append, List.filter_append]
    rw [List.filter_eq_nil_iff.2 (by
      intro x hx
      simp [hSf x hx]), List.filter_eq_nil_iff.2 (by
      intro x hx
      simp [hRf x hx])]
    simp only [List.nil_append]
    exact List.filter_eq_self.2 (by
      intro x hx
      exact hFt x hx)

/-- C3 witness: the amended ordering at a concrete batch under the reversed
completion order (task 1 finishes first), showing the guarantees do not
depend on completion timing. -/
theorem C3_witness :
    evBefore isStarted isResolved (batchTrace c3Tools c3Calls [1, 0]) ∧
    evBefore isResolved isFinished (batchTrace c3Tools c3Calls [1, 0]) ∧
    (batchTrace c3Tools c3Calls [1, 0]).filter isFinished =
      c3Calls.enum.map (fun ic => BatchEv.finished ic.1 ic.2.1 (execTool c3Tools ic.2)) := by
  have h := C3_batch_ordering c3Tools c3Calls [1, 0]
  exact ⟨h.1, h.2.2.1, h.2.2.2⟩

def c7wEst : List Msg → Nat := fun _ => 50

def c7wMsgs : List Msg :=
  (List.range 11).map (fun i => ⟨roleUser, (Nat.repr i).toList⟩)

/-- C7 witness: an 11-message transcript is restructured into exactly
head(2) + note + tail(6) = 9 messages with the first two preserved. -/
theorem C7_witness :
    c7wMsgs.length = 11 ∧
    pruneMessages c7wEst c7wMsgs =
      c7wMsgs.take 2 ++ [pruneNote c7wEst c7wMsgs] ++ lastN 6 c7wMsgs ∧
    (pruneMessages c7wEst c7wMsgs).length = 9 ∧
    (pruneMessages c7wEst c7wMsgs).take 2 = c7wMsgs.take 2 ∧
    (pruneNote c7wEst c7wMsgs).role = roleSystem := by
  have h := C7_prune_policy c7wEst c7wMsgs
  exact ⟨by decide, (h.1.2.2.2 (by decide)).1, (h.1.2.2.2 (by decide)).2.1,
    h.1.2.1, (h.1.2.2.2 (by decide)).2.2.1⟩

/-! ### Loop shape lemmas (for C2, C5, C8) -/

theorem iterStep_shape {α : Type} (env : LoopEnv α) (msgs : List Msg) (it : Nat) :
    (∃ evs msgs2, iterStep env msgs it = StepRes.cont evs msgs2 ∧
      ∀ e ∈ evs, isFinalEv e = false ∧ isTimeoutEv e = false) ∨
    (∃ front p, iterStep env msgs it = StepRes.halt (front ++ [p]) ∧
      (∀ e ∈ front, isFinalEv e = false ∧ isTimeoutEv e = false) ∧
      isFinalEv p = true) := by
  cases h1 : hasAnswer (truncResp (env.llm msgs)) with
  | true =>
    right
    refine ⟨(Event.status (iterStatusL it) :: thinkEvents (truncResp (env.llm msgs))) ++
        [Event.answer (extractAnswer (truncResp (env.llm msgs)))],
      Event.finalAnswer (extractAnswer (truncResp (env.llm msgs)))
        (msgs ++ [⟨roleAssistant, pyStrip (truncResp (env.llm msgs))⟩]) it
        terminationAnswerL, ?_, ?_, rfl⟩
    · simp only [iterStep, h1, if_true]
      simp [List.append_assoc]
    · intro e he
      rcases List.mem_append.1 he with hin | hin
      · rcases List.mem_cons.1 hin with rfl | ht
        · exact ⟨rfl, rfl⟩
        · have := thinkEvents_flags (α := α) (truncResp (env.llm msgs)) e ht
          exact ⟨this.1, this.2.1⟩
      · rw [List.mem_singleton.1 hin]
        exact ⟨rfl, rfl⟩
  | false =>
    by_cases h2 : env.est (batchPhase env.tools
        (env.extractCalls (truncResp (env.llm msgs))) it
        (msgs ++ [⟨roleAssistant, pyStrip (truncResp (env.llm msgs))⟩])).2 >
        env.maxTokens
    · by_cases h3 : (it : Int) < (env.maxIterations : Int) - 3
      · left
        refine ⟨(Event.status (iterStatusL it) :: thinkEvents (truncResp (env.llm msgs))) ++
            (batchPhase env.tools (env.extractCalls (truncResp (env.llm msgs))) it
              (msgs ++ [⟨roleAssistant, pyStrip (truncResp (env.llm msgs))⟩])).1 ++
            [Event.status prunedStatusL],
          pruneMessages env.est
            (batchPhase env.tools (env.extractCalls (truncResp (env.llm msgs))) it
              (msgs ++ [⟨roleAssistant, pyStrip (truncResp (env.llm msgs))⟩])).2, ?_, ?_⟩
        · simp only [iterStep, h1, Bool.false_eq_true, if_false, if_pos h2, if_pos h3]
        · intro e he
          rcases List.mem_append.1 he with hin | hin
          · rcases List.mem_append.1 hin with hin2 | hin2
            · rcases List.mem_cons.1 hin2 with rfl | ht
              · exact ⟨rfl, rfl⟩
              · have := thinkEvents_flags (α := α) (truncResp (env.llm msgs)) e ht
                exact ⟨this.1, this.2.1⟩
            · exact batchPhase_flags _ _ _ _ e hin2
          · rw [List.mem_singleton.1 hin]
            exact ⟨rfl, rfl⟩
      · right
        refine ⟨(Event.status (iterStatusL it) :: thinkEvents (truncResp (env.llm msgs))) ++
            (batchPhase env.tools (env.extractCalls (truncResp (env.llm msgs))) it
              (msgs ++ [⟨roleAssistant, pyStrip (truncResp (env.llm msgs))⟩])).1 ++
            [Event.status tokenLimitStatusL,
             Event.answer (forceSummarize env.llm
               (batchPhase env.tools (env.extractCalls (truncResp (env.llm msgs))) it
                 (msgs ++ [⟨roleAssistant, pyStrip (truncResp (env.llm msgs))⟩])).2).pred],
          Event.finalAnswer
            (forceSummarize env.llm
              (batchPhase env.tools (env.extractCalls (truncResp (env.llm msgs))) it
                (msgs ++ [⟨roleAssistant, pyStrip (truncResp (env.llm msgs))⟩])).2).pred
            (forceSummarize env.llm
              (batchPhase env.tools (env.extractCalls (truncResp (env.llm msgs))) it
                (msgs ++ [⟨roleAssistant, pyStrip (truncResp (env.llm msgs))⟩])).2).msgs
            it
            (forceSummarize env.llm
              (batchPhase env.tools (env.extractCalls (truncResp (env.llm msgs))) it
                (msgs ++ [⟨roleAssistant, pyStrip (truncResp (env.llm msgs))⟩])).2).term,
          ?_, ?_, rfl⟩
        · simp only [iterStep, h1, Bool.false_eq_true, if_false, if_pos h2, if_neg h3]
          simp [List.append_assoc]
        · intro e he
          rcases List.mem_append.1 he with hin | hin
          · rcases List.mem_append.1 hin with hin2 | hin2
            · rcases List.mem_cons.1 hin2 with rfl | ht
              · exact ⟨rfl, rfl⟩
              · have := thinkEvents_flags (α := α) (truncResp (env.llm msgs)) e ht
                exact ⟨this.1, this.2.1⟩
            · exact batchPhase_flags _ _ _ _ e hin2
          · rcases List.mem_cons.1 hin with rfl | hin2
            · exact ⟨rfl, rfl⟩
            · rw [List.mem_singleton.1 hin2]
              exact ⟨rfl, rfl⟩
    · left
      refine ⟨(Event.status (iterStatusL it) :: thinkEvents (truncResp (env.llm msgs))) ++
          (batchPhase env.tools (env.extractCalls (truncResp (env.llm msgs))) it
            (msgs ++ [⟨roleAssistant, pyStrip (truncResp (env.llm msgs))⟩])).1,
        (batchPhase env.tools (env.extractCalls (truncResp (env.llm msgs))) it
          (msgs ++ [⟨roleAssistant, pyStrip (truncResp (env.llm msgs))⟩])).2, ?_, ?_⟩
      · simp only [iterStep, h1, Bool.false_eq_true, if_false, if_neg h2]
      · intro e he
        rcases List.mem_append.1 he with hin | hin
        · rcases List.mem_cons.1 hin with rfl | ht
          · exact ⟨rfl, rfl⟩
          · have := thinkEvents_flags (α := α) (truncResp (env.llm msgs)) e ht
            exact ⟨this.1, this.2.1⟩
        · exact batchPhase_flags _ _ _ _ e hin

/-- Every run of the loop body ends in exactly one terminal event
(`final_answer` or, on the wall-clock path, `timeout`), which is the last
event; no terminal event occurs earlier. -/
theorem loopGo_terminal {α : Type} (env : LoopEnv α) :
    ∀ fuel (msgs : List Msg) (it : Nat),
      ∃ front t, loopGo env fuel msgs it = front ++ [t] ∧
        (∀ e ∈ front, isFinalEv e = false ∧ isTimeoutEv e = false) ∧
        (isFinalEv t = true ∨ isTimeoutEv t = true) := by
  intro fuel
  induction fuel with
  | zero =>
    intro msgs it
    exact ⟨[Event.error maxIterContentL],
      Event.finalAnswer maxIterAnswerL msgs it maxIterTermL, rfl,
      by
        intro e he
        rw [List.mem_singleton.1 he]
        exact ⟨rfl, rfl⟩,
      Or.inl rfl⟩
  | succ n ih =>
    intro msgs it
    cases hto : env.timedOut it with
    | true =>
      refine ⟨[], Event.timeout researchTimeoutL, ?_, by simp, Or.inr rfl⟩
      simp [loopGo, hto]
    | false =>
      rcases iterStep_shape env msgs (it + 1) with
        ⟨evs, msgs2, hstep, hflags⟩ | ⟨front, p, hstep, hflags, hp⟩
      · rcases ih msgs2 (it + 1) with ⟨front', t', hrec, hflags', ht'⟩
        refine ⟨evs ++ front', t', ?_, ?_, ht'⟩
        · simp [loopGo, hto, hstep, hrec, List.append_assoc]
        · intro e he
          rcases List.mem_append.1 he with h | h
          · exact hflags e h
          · exact hflags' e h
      · refine ⟨front, p, ?_, hflags, Or.inl hp⟩
        simp [loopGo, hto, hstep]

/-! ### Claim C2 -/

/-- C2 counterexample environment: the wall clock is already over the
ceiling at the first loop entry. -/
def c2Env : LoopEnv Unit where
  llm := fun _ => ("irrelevant").toList
  extractCalls := fun _ => []
  tools := []
  timedOut := fun _ => true
  est := fun _ => 0
  maxIterations := 5
  maxTokens := 1000
  systemPrompt := ("sys").toList
  intentStatus := ("intent").toList

/-- C2 counterexample: on the wall-clock-timeout path `stream_run` yields
`{"type": "timeout", ...}` and returns (lines 207-209) — the run ends with a
`timeout` event and emits *no* `final_answer` event at all, refuting
"whatever the terminal path ... exactly one terminal Final event". -/
theorem C2_counterexample :
    streamRun c2Env (("q").toList) =
      [Event.status identifyStatusL, Event.status (("intent").toList),
       Event.timeout researchTimeoutL] ∧
    (streamRun c2Env (("q").toList)).filter isFinalEv = [] := by
  exact ⟨by decide, by decide⟩

/-- C2 (amended): every run of `stream_run` emits exactly one terminal
event, which is its last event; on every terminal path other than the
wall-clock timeout that terminal event is the single `final_answer` of the
run, while the wall-clock path ends in a `timeout` event instead and emits
no `final_answer` at all.  (Stated over runs whose tool calls return
normally, as embedded by `LoopEnv`; a raising tool call destroys the batch
entirely, see C1.) -/
theorem C2_terminal_event {α : Type} (env : LoopEnv α) (question : List Char) :
    ∃ front t, streamRun env question = front ++ [t] ∧
      (∀ e ∈ front, isFinalEv e = false ∧ isTimeoutEv e = false) ∧
      (isFinalEv t = true ∨ isTimeoutEv t = true) ∧
      (isTimeoutEv t = true →
        ∀ e ∈ streamRun env question, isFinalEv e = false) := by
  rcases loopGo_terminal env env.maxIterations
      [⟨roleSystem, env.systemPrompt⟩, ⟨roleUser, question⟩] 0 with
    ⟨front, t, hloop, hflags, ht⟩
  refine ⟨Event.status identifyStatusL :: Event.status env.intentStatus :: front, t,
    ?_, ?_, ht, ?_⟩
  · simp [streamRun, hloop]
  · intro e he
    rcases List.mem_cons.1 he with rfl | he'
    · exact ⟨rfl, rfl⟩
    · rcases List.mem_cons.1 he' with rfl | he''
      · exact ⟨rfl, rfl⟩
      · exact hflags e he''
  · intro htt e he
    have hrun : streamRun env question =
        (Event.status identifyStatusL :: Event.status env.intentStatus :: front) ++ [t] := by
      simp [streamRun, hloop]
    rw [hrun] at he
    rcases List.mem_append.1 he with hin | hin
    · rcases List.mem_cons.1 hin with rfl | hin'
      · rfl
      · rcases List.mem_cons.1 hin' with rfl | hin''
        · rfl
        · exact (hflags e hin'').1
    · rw [List.mem_singleton.1 hin]
      exact isFinalEv_false_of_isTimeoutEv t htt

/-- C2 witness: the amended theorem applied to the counterexample
environment (any environment works; binders are types, not hypotheses). -/
theorem C2_witness :
    ∃ front t, streamRun c2Env (("q").toList) = front ++ [t] ∧
      (∀ e ∈ front, isFinalEv e = false ∧ isTimeoutEv e = false) ∧
      (isFinalEv t = true ∨ isTimeoutEv t = true) ∧
      (isTimeoutEv t = true →
        ∀ e ∈ streamRun c2Env (("q").toList), isFinalEv e = false) :=
  C2_terminal_event c2Env (("q").toList)

/-! ### Claim C5 -/

/-- C5: when the (truncated) model turn contains an answer delimiter, the
loop terminates at once with the `Answered` outcome extracted from it — the
answer check (line 243) runs before `_extract_tool_calls` is consulted, so
even if the same turn also contains tool-call delimiters, no `tool_start` or
`tool_response` event is emitted and no tool is dispatched: the emitted
events are exactly the iteration status, the optional thought, the answer,
and the final event with termination `"answer"`, and the run ends there.
The conclusion holds for every registry and every call extractor, which is
the formal sense of "no tool invocation of that turn is dispatched or
executed". -/
theorem C5_answer_priority {α : Type} (env : LoopEnv α) (msgs : List Msg)
    (it fuel : Nat)
    (ht : env.timedOut it = false)
    (h1 : hasAnswer (truncResp (env.llm msgs)) = true)
    (h2 : containsSub toolCallStartL (truncResp (env.llm msgs)) = true) :
    loopGo env (fuel + 1) msgs it =
      (Event.status (iterStatusL (it + 1)) ::
        thinkEvents (truncResp (env.llm msgs))) ++
      [Event.answer (extractAnswer (truncResp (env.llm msgs))),
       Event.finalAnswer (extractAnswer (truncResp (env.llm msgs)))
         (msgs ++ [⟨roleAssistant, pyStrip (truncResp (env.llm msgs))⟩])
         (it + 1) terminationAnswerL] ∧
    (∀ e ∈ loopGo env (fuel + 1) msgs it, isToolEv e = false) := by
  have hstep : iterStep env msgs (it + 1) =
      StepRes.halt ((Event.status (iterStatusL (it + 1)) ::
          thinkEvents (truncResp (env.llm msgs))) ++
        [Event.answer (extractAnswer (truncResp (env.llm msgs))),
         Event.finalAnswer (extractAnswer (truncResp (env.llm msgs)))
           (msgs ++ [⟨roleAssistant, pyStrip (truncResp (env.llm msgs))⟩])
           (it + 1) terminationAnswerL]) := by
    simp only [iterStep, h1, if_true]
  have hrun : loopGo env (fuel + 1) msgs it =
      (Event.status (iterStatusL (it + 1)) ::
        thinkEvents (truncResp (env.llm msgs))) ++
      [Event.answer (extractAnswer (truncResp (env.llm msgs))),
       Event.finalAnswer (extractAnswer (truncResp (env.llm msgs)))
         (msgs ++ [⟨roleAssistant, pyStrip (truncResp (env.llm msgs))⟩])
         (it + 1) terminationAnswerL] := by
    simp [loopGo, ht, hstep]
  refine ⟨hrun, ?_⟩
  intro e he
  rw [hrun] at he
  rcases List.mem_append.1 he with hin | hin
  · rcases List.mem_cons.1 hin with rfl | hthink
    · rfl
    · exact (thinkEvents_flags (α := α) (truncResp (env.llm msgs)) e hthink).2.2
  · rcases List.mem_cons.1 hin with rfl | hin'
    · rfl
    · rw [List.mem_singleton.1 hin']
      rfl

/-- C5 witness environment: the model turn carries both a tool call block
and an answer block, and the extractor would actually return an invocation
were it consulted. -/
def c5Env : LoopEnv Unit where
  llm := fun _ => ("<tool_call>ignored</tool_call><answer>C5</answer>").toList
  extractCalls := fun _ => [(("search").toList, ())]
  tools := []
  timedOut := fun _ => false
  est := fun _ => 0
  maxIterations := 7
  maxTokens := 1000
  systemPrompt := ("sys").toList
  intentStatus := ("intent").toList

def c5Msgs : List Msg :=
  [⟨roleSystem, ("sys").toList⟩, ⟨roleUser, ("q").toList⟩]

/-- C5 witness: the concrete run terminates with the answer `"C5"` and
emits no tool events. -/
theorem C5_witness :
    loopGo c5Env 3 c5Msgs 0 =
      [Event.status (iterStatusL 1),
       Event.answer (("C5").toList),
       Event.finalAnswer (("C5").toList)
         (c5Msgs ++ [⟨roleAssistant,
           ("<tool_call>ignored</tool_call><answer>C5</answer>").toList⟩])
         1 terminationAnswerL] ∧
    (∀ e ∈ loopGo c5Env 3 c5Msgs 0, isToolEv e = false) := by
  have h := C5_answer_priority c5Env c5Msgs 0 2 (by decide) (by decide) (by decide)
  exact ⟨h.1.trans (by decide), h.2⟩

/-! ### Claim C8 -/

def c8Q : List Char := ("what is it").toList

/-- C8 counterexample environment: the first turn has no tags and no tool
calls (so the transcript ends with the *assistant* message), the estimate
always exceeds the limit, and at most 3 iterations of the budget remain
(`iterations = 1`, cap 4), putting the loop on the forced-summarization
path; the forced call then returns an answer-tagged response. -/
def c8Env : LoopEnv Unit where
  llm := fun msgs =>
    if msgs.length ≤ 2 then ("just thinking, no markers").toList
    else ("<answer>done</answer>").toList
  extractCalls := fun _ => []
  tools := []
  timedOut := fun _ => false
  est := fun _ => 1
  maxIterations := 4
  maxTokens := 0
  systemPrompt := ("sys").toList
  intentStatus := ("intent").toList

def c8Msgs0 : List Msg := [⟨roleSystem, ("sys").toList⟩, ⟨roleUser, c8Q⟩]

def c8Final : List Msg :=
  [⟨roleSystem, ("sys").toList⟩, ⟨roleUser, c8Q⟩,
   ⟨roleAssistant, forcePromptL⟩,
   ⟨roleAssistant, ("<answer>done</answer>").toList⟩]

/-- C8 counterexample: on this forced-summarization run (termination
`token_limit_forced_answer`, so the forced path was taken), the directive
overwrote the content of the latest message — the *assistant* turn, because
`_force_summarize` assigns to `messages[-1]` whatever its role is — while
the only user turn of the transcript still carries the original question:
the claim's "replaces the latest user-turn content" does not hold on turns
that produced no tool results. -/
theorem C8_counterexample :
    streamRun c8Env c8Q =
      [Event.status identifyStatusL, Event.status (("intent").toList),
       Event.status (iterStatusL 1), Event.status tokenLimitStatusL,
       Event.answer (("done").toList),
       Event.finalAnswer (("done").toList) c8Final 1 termForcedL] ∧
    (c8Final.getD 2 ⟨[], []⟩).role = roleAssistant ∧
    (c8Final.getD 2 ⟨[], []⟩).content = forcePromptL ∧
    (c8Final.filter (fun m => m.role == roleUser)).map Msg.content = [c8Q] := by
  exact ⟨by decide, by decide, by decide, by decide⟩

/-- C8 (amended): whenever, after a turn without an answer, the token
estimate of the post-turn transcript exceeds the limit and at most 3
iterations of the budget remain (`¬ (iterations < max_iterations - 3)`), the
loop replaces the content of the *latest message* of the transcript (a user
turn exactly when the turn just dispatched tools; otherwise the assistant
turn itself) with the forced-summarization directive, makes exactly one
further model call on that transcript, appends its response, and terminates
the run right there with outcome `token_limit_forced_answer` if the forced
response contains an answer delimiter and `token_limit_format_error`
otherwise (the final event being the last of the run). -/
theorem C8_force_summarize {α : Type} (env : LoopEnv α) (msgs msgs2 : List Msg)
    (bev : List (Event α)) (it fuel : Nat)
    (ht : env.timedOut it = false)
    (h1 : hasAnswer (truncResp (env.llm msgs)) = false)
    (hm : batchPhase env.tools (env.extractCalls (truncResp (env.llm msgs))) (it + 1)
        (msgs ++ [⟨roleAssistant, pyStrip (truncResp (env.llm msgs))⟩]) = (bev, msgs2))
    (h2 : env.est msgs2 > env.maxTokens)
    (h3 : ¬ (((it + 1 : Nat) : Int) < (env.maxIterations : Int) - 3)) :
    loopGo env (fuel + 1) msgs it =
      (Event.status (iterStatusL (it + 1)) ::
        thinkEvents (truncResp (env.llm msgs))) ++ bev ++
      [Event.status tokenLimitStatusL,
       Event.answer (forceSummarize env.llm msgs2).pred,
       Event.finalAnswer (forceSummarize env.llm msgs2).pred
         (forceSummarize env.llm msgs2).msgs (it + 1)
         (forceSummarize env.llm msgs2).term] ∧
    (forceSummarize env.llm msgs2).msgs =
      setLastContent msgs2 forcePromptL ++
        [⟨roleAssistant, pyStrip (env.llm (setLastContent msgs2 forcePromptL))⟩] ∧
    (hasAnswer (env.llm (setLastContent msgs2 forcePromptL)) = true →
      (forceSummarize env.llm msgs2).term = termForcedL ∧
      (forceSummarize env.llm msgs2).pred =
        extractAnswer (env.llm (setLastContent msgs2 forcePromptL))) ∧
    (hasAnswer (env.llm (setLastContent msgs2 forcePromptL)) = false →
      (forceSummarize env.llm msgs2).term = termFormatErrL ∧
      (forceSummarize env.llm msgs2).pred =
        env.llm (setLastContent msgs2 forcePromptL)) := by
  have hstep : iterStep env msgs (it + 1) =
      StepRes.halt ((Event.status (iterStatusL (it + 1)) ::
          thinkEvents (truncResp (env.llm msgs))) ++ bev ++
        [Event.status tokenLimitStatusL,
         Event.answer (forceSummarize env.llm msgs2).pred,
         Event.finalAnswer (forceSummarize env.llm msgs2).pred
           (forceSummarize env.llm msgs2).msgs (it + 1)
           (forceSummarize env.llm msgs2).term]) := by
    simp only [iterStep, h1, Bool.false_eq_true, if_false, hm]
    rw [if_pos h2, if_neg h3]
  refine ⟨by simp [loopGo, ht, hstep], ?_, ?_, ?_⟩
  · cases hfa : hasAnswer (env.llm (setLastContent msgs2 forcePromptL)) with
    | true => simp [forceSummarize, hfa]
    | false => simp [forceSummarize, hfa]
  · intro hfa
    constructor <;> simp [forceSummarize, hfa]
  · intro hfa
    constructor <;> simp [forceSummarize, hfa]

/-- C8 witness: the amended theorem at the concrete environment of the
counterexample, with the hypotheses discharged by evaluation; the
forced-answer branch fires. -/
theorem C8_witness :
    loopGo c8Env 4 c8Msgs0 0 =
      [Event.status (iterStatusL 1), Event.status tokenLimitStatusL,
       Event.answer (("done").toList),
       Event.finalAnswer (("done").toList) c8Final 1 termForcedL] ∧
    (forceSummarize c8Env.llm
        (c8Msgs0 ++ [⟨roleAssistant, ("just thinking, no markers").toList⟩])).term =
      termForcedL := by
  have h := C8_force_summarize c8Env c8Msgs0
    (c8Msgs0 ++ [⟨roleAssistant, ("just thinking, no markers").toList⟩]) [] 0 3
    (by decide) (by decide) (by decide) (by decide) (by decide)
  refine ⟨h.1.trans (by decide), (h.2.2.1 (by decide)).1⟩

end ReactAgent
